import Mathlib

/-!
Verification of the GF(2) bit-matrix core of the AES white-box repository
(package `matrix`, file matrix.go).

Bytes are modelled as natural numbers (well-formed data carries the bound
`< 256`; every Go byte operation used by the code — xor, and, shift —
coincides with the corresponding `Nat` operation on that range).  A `Row`
is a packed bit vector, `[]byte` in the source; a `BitMatrix` (the source
type `Matrix`, renamed so that Mathlib's `Matrix` stays visible) is a list
of rows.  Go panics (out-of-range indexing, dimension mismatches) are
modelled by `Option`-returning checked wrappers; the unchecked functions
are exact on the domain where the Go code does not panic.
-/

set_option maxHeartbeats 4000000
set_option maxRecDepth 20000

namespace AES

abbrev Row := List Nat

abbrev BitMatrix := List Row

/-- The per-byte parity lookup table `weight` (matrix.go lines 8-11). -/
def weight : List Nat :=
  [0x6996966996696996, 0x9669699669969669,
   0x9669699669969669, 0x6996966996696996]

/-- `func (e Row) Add(f Row) Row` (matrix.go 15-26): bytewise xor.
Defined on equal-length rows; the length-check panic is `Row.AddChk`. -/
def Row.Add (e f : Row) : Row := List.zipWith (fun a b => a ^^^ b) e f

/-- The panic behaviour of `Row.Add`: `none` models the Go panic on
rows of different sizes. -/
def Row.AddChk (e f : Row) : Option Row :=
  if e.length = f.length then some (Row.Add e f) else none

/-- `func (e Row) Mul(f Row) Row` (matrix.go 28-39): bytewise and. -/
def Row.Mul (e f : Row) : Row := List.zipWith (fun a b => a &&& b) e f

/-- `func (e Row) DotProduct(f Row) bool` (matrix.go 41-49): xor-accumulate,
over the bytes of `e.Mul f`, the parity bit looked up in `weight`. -/
def Row.DotProduct (e f : Row) : Bool :=
  (List.foldl (fun parity g => parity ^^^ ((List.getD weight (g / 64) 0 >>> (g % 64)) &&& 1))
    0 (Row.Mul e f)) = 1

/-- `func (e Row) GetBit(i int) byte` (matrix.go 61-63). -/
def Row.GetBit (e : Row) (i : Nat) : Nat :=
  (List.getD e (i / 8) 0 >>> (i % 8)) &&& 1

/-- `func (e Row) SetBit(i int, x bool)` (matrix.go 65-70): toggle byte
`i/8` at bit `i%8` only when the stored bit differs from `x`. -/
def Row.SetBit (e : Row) (i : Nat) (x : Bool) : Row :=
  let y := Row.GetBit e i
  if (y = 0 ∧ x = true) ∨ (y = 1 ∧ x = false) then
    List.set e (i / 8) (List.getD e (i / 8) 0 ^^^ (1 <<< (i % 8)))
  else e

/-- `func (e Row) Size() int` (matrix.go 72-74). -/
def Row.Size (e : Row) : Nat := 8 * e.length

/-- `func (e Row) Weight() int` (matrix.go 51-59): number of set bits. -/
def Row.Weight (e : Row) : Nat :=
  List.countP (fun i => Row.GetBit e i == 1) (List.range (Row.Size e))

/-- `func (e Matrix) Size() (int, int)` (matrix.go 158-160), with the panic
on a zero-row matrix (`e[0]` out of range) modelled by `none`. -/
def BitMatrix.SizeChk (e : BitMatrix) : Option (Nat × Nat) :=
  match e with
  | [] => none
  | r :: _ => some (e.length, Row.Size r)

/-- The body of `func (e Matrix) Mul(f Row) Row` (matrix.go 78-92) after its
size checks: set bit `i` of a fresh row of `len(e)/8` bytes whenever row `i`
of `e` has odd inner product with `f`. -/
def BitMatrix.Mul (e : BitMatrix) (f : Row) : Row :=
  List.foldl
    (fun res i => if Row.DotProduct (List.getD e i []) f then Row.SetBit res i true else res)
    (List.replicate (e.length / 8) 0)
    (List.range e.length)

/-- `Matrix.Mul` with its panics: `none` when `e` has no rows (the `e.Size()`
call indexes `e[0]`) or when the width of row 0 differs from `f.Size()`. -/
def BitMatrix.MulChk (e : BitMatrix) (f : Row) : Option Row := do
  let (_, inn) ← BitMatrix.SizeChk e
  if inn ≠ Row.Size f then none else some (BitMatrix.Mul e f)

/-- `func (e Matrix) Add(f Matrix) Matrix` (matrix.go 94-101): rowwise xor. -/
def BitMatrix.Add (e f : BitMatrix) : BitMatrix := List.zipWith Row.Add e f

/-- `func GenerateEmpty(n int) Matrix` (matrix.go 182-189). -/
def GenerateEmpty (n : Nat) : BitMatrix :=
  List.replicate n (List.replicate (n / 8) 0)

/-- `func GenerateIdentity(n int) Matrix` (matrix.go 162-169):
`out[i].SetBit(i, true)` for each row of the empty matrix. -/
def GenerateIdentity (n : Nat) : BitMatrix :=
  List.foldl (fun out i => List.set out i (Row.SetBit (List.getD out i []) i true))
    (GenerateEmpty n) (List.range n)

/-- `func GenerateFull(n int) Matrix` (matrix.go 171-180). -/
def GenerateFull (n : Nat) : BitMatrix :=
  List.replicate n (List.replicate (n / 8) 0xff)

/-- The pivot scan of `Matrix.Invert` (matrix.go 116-123): `candId` starts
at the sentinel 255 and takes the first `i` in `row ≤ i < a` (fuel
`a - row`) whose bit `row` is set. -/
def scanPivot (f : BitMatrix) (row : Nat) : Nat → Nat → Nat
  | 0, _ => 255
  | fuel + 1, i =>
    if Row.GetBit (List.getD f i []) row = 1 then i else scanPivot f row fuel (i + 1)

/-- One iteration `i` of the cancellation loop of `Matrix.Invert`
(matrix.go 134-143): when `i ≠ row` and bit `row` of `f[i]` is set, xor row
`row` into row `i` of both the working copy and the augmentation. -/
def elimStep (row i : Nat) (st : BitMatrix × BitMatrix) : BitMatrix × BitMatrix :=
  if i = row then st
  else if Row.GetBit (List.getD st.1 i []) row = 1 then
    (List.set st.1 i (Row.Add (List.getD st.1 i []) (List.getD st.1 row [])),
     List.set st.2 i (Row.Add (List.getD st.2 i []) (List.getD st.2 row [])))
  else st

/-- The full cancellation loop of `Matrix.Invert`, `i` from 0 to `a-1`. -/
def elimLoop (row a : Nat) (st : BitMatrix × BitMatrix) : BitMatrix × BitMatrix :=
  List.foldl (fun st i => elimStep row i st) st (List.range a)

/-- The parallel swap `f[row], f[candId] = f[candId], f[row]`. -/
def swapRows (m : BitMatrix) (i j : Nat) : BitMatrix :=
  List.set (List.set m i (List.getD m j [])) j (List.getD m i [])

/-- The column loop of `Matrix.Invert` (matrix.go 114-144), recursing on the
number of columns left to process. -/
def invertLoop (a : Nat) : Nat → Nat → BitMatrix → BitMatrix → BitMatrix × Bool
  | 0, _, _, out => (out, true)
  | fuel + 1, row, f, out =>
    let candId := scanPivot f row (a - row) row
    if candId = 255 then (out, false)
    else
      let f1 := swapRows f row candId
      let out1 := swapRows out row candId
      let st := elimLoop row a (f1, out1)
      invertLoop a fuel (row + 1) st.1 st.2

/-- `func (e Matrix) Invert() (Matrix, bool)` (matrix.go 103-147) after the
squareness check: Gauss-Jordan elimination of a duplicate of `e` against an
identity augmentation. -/
def BitMatrix.Invert (e : BitMatrix) : BitMatrix × Bool :=
  invertLoop e.length e.length 0 e (GenerateIdentity e.length)

/-- `Matrix.Invert` with its panics: `none` when `e` is empty (the `e.Size()`
call) or non-square (matrix.go 104-107). -/
def BitMatrix.InvertChk (e : BitMatrix) : Option (BitMatrix × Bool) := do
  let (a, b) ← BitMatrix.SizeChk e
  if a ≠ b then none else some (BitMatrix.Invert e)

/-- `func (e Matrix) Trace() (out byte)` (matrix.go 149-156): xor-accumulate
`(e[i][0] >> i) & 1` over all rows.  Note the source reads byte 0 of row
`i`, not bit `i` of row `i`. -/
def BitMatrix.Trace (e : BitMatrix) : Nat :=
  List.foldl (fun out i => out ^^^ ((List.getD (List.getD e i []) 0 0 >>> i) &&& 1))
    0 (List.range e.length)

/-- `Matrix.Trace` with its panics: `none` when `e` is empty (from
`e.Size()`) or when some row read by `e[i][0]` is empty.  The source
performs no squareness check. -/
def BitMatrix.TraceChk (e : BitMatrix) : Option Nat := do
  let _ ← BitMatrix.SizeChk e
  if List.all e (fun r => !List.isEmpty r) then some (BitMatrix.Trace e) else none

/-- One row read of `GenerateRandom` (matrix.go 195-196): `n/8` consecutive
bytes of the random stream starting at `pos`. -/
def readRow (stream : Nat → Nat) (pos nbytes : Nat) : Row :=
  List.map (fun j => stream (pos + j)) (List.range nbytes)

/-- The full `n × n` draw of `GenerateRandom` (matrix.go 192-199). -/
def drawMatrix (stream : Nat → Nat) (pos n : Nat) : BitMatrix :=
  List.map (fun i => readRow stream (pos + i * (n / 8)) (n / 8)) (List.range n)

/-- `func GenerateRandom(reader io.Reader, n int) Matrix` (matrix.go
191-210).  The reader is an infinite byte stream read at a cursor `pos`;
the unbounded retry recursion carries explicit fuel, so `none` models
either fuel exhaustion or the panic inside `m.Invert()` (`n` not a positive
multiple of 8); `some (m, pos)` returns the matrix together with the
advanced cursor. -/
def GenerateRandom (stream : Nat → Nat) (n : Nat) :
    Nat → Nat → Option (BitMatrix × Nat)
  | 0, _ => none
  | fuel + 1, pos =>
    let m := drawMatrix stream pos n
    match BitMatrix.InvertChk m with
    | none => none
    | some (_, ok) =>
      if ok then some (m, pos + n * (n / 8))
      else GenerateRandom stream n fuel (pos + n * (n / 8))

/-- Bit `i` of a packed row, as a `Bool` (bit `i % 8` of byte `i / 8`).
This is the specification-level view of `Row.GetBit`. -/
def Row.tBit (e : Row) (i : Nat) : Bool := (List.getD e (i / 8) 0).testBit (i % 8)

/-- Well-formed row: width `w` bytes, each an actual byte value. -/
def WFRow (w : Nat) (e : Row) : Prop := e.length = w ∧ ∀ b ∈ e, b < 256

/-- Well-formed matrix: `n` rows, each well-formed of width `w`. -/
def WFMat (n w : Nat) (m : BitMatrix) : Prop :=
  m.length = n ∧ ∀ r ∈ m, WFRow w r

instance (w : Nat) (e : Row) : Decidable (WFRow w e) := by
  unfold WFRow; infer_instance

instance (n w : Nat) (m : BitMatrix) : Decidable (WFMat n w m) := by
  unfold WFMat; infer_instance

/-! ### Bit-level lemmas about rows -/

theorem GetBit_eq_tBit (e : Row) (i : Nat) :
    Row.GetBit e i = (Row.tBit e i).toNat := by
  unfold Row.GetBit Row.tBit
  rw [Nat.and_one_is_mod, Nat.shiftRight_eq_div_pow, Nat.toNat_testBit]

theorem GetBit_eq_one_iff (e : Row) (i : Nat) :
    Row.GetBit e i = 1 ↔ Row.tBit e i = true := by
  rw [GetBit_eq_tBit]; cases Row.tBit e i <;> simp

theorem GetBit_eq_zero_iff (e : Row) (i : Nat) :
    Row.GetBit e i = 0 ↔ Row.tBit e i = false := by
  rw [GetBit_eq_tBit]; cases Row.tBit e i <;> simp

theorem WFRow.getD_lt {w : Nat} {e : Row} (h : WFRow w e) (k : Nat) :
    List.getD e k 0 < 256 := by
  rcases Nat.lt_or_ge k e.length with hk | hk
  · exact h.2 _ (List.mem_iff_getElem.2
      ⟨k, hk, by simp [List.getD_eq_getElem?_getD, List.getElem?_eq_getElem hk]⟩)
  · simp [List.getD_eq_getElem?_getD, List.getElem?_eq_none hk]

theorem tBit_high {w : Nat} {e : Row} (h : WFRow w e) {i : Nat} (hi : 8 * w ≤ i) :
    Row.tBit e i = false := by
  unfold Row.tBit
  have : e.length ≤ i / 8 := by
    rw [h.1]
    exact Nat.le_div_iff_mul_le (by norm_num) |>.2 (by omega)
  simp [List.getD_eq_getElem?_getD, List.getElem?_eq_none this]

/-- Two well-formed rows of the same width with the same bits are equal. -/
theorem row_ext {w : Nat} {e f : Row} (he : WFRow w e) (hf : WFRow w f)
    (h : ∀ i < 8 * w, Row.tBit e i = Row.tBit f i) : e = f := by
  apply List.ext_getElem (he.1.trans hf.1.symm)
  intro k h1 h2
  apply Nat.eq_of_testBit_eq
  intro m
  rcases Nat.lt_or_ge m 8 with hm | hm
  · have hk : k < w := he.1 ▸ h1
    have hbit := h (8 * k + m) (by omega)
    unfold Row.tBit at hbit
    have hdiv : (8 * k + m) / 8 = k := by omega
    have hmod : (8 * k + m) % 8 = m := by omega
    rw [hdiv, hmod] at hbit
    have hge : List.getD e k 0 = e[k] := by
      simp [List.getD_eq_getElem?_getD, List.getElem?_eq_getElem h1]
    have hgf : List.getD f k 0 = f[k] := by
      simp [List.getD_eq_getElem?_getD, List.getElem?_eq_getElem h2]
    rw [hge, hgf] at hbit
    exact hbit
  · have h256 : (256 : Nat) ≤ 2 ^ m := by
      calc (256 : Nat) = 2 ^ 8 := by norm_num
      _ ≤ 2 ^ m := Nat.pow_le_pow_right (by norm_num) hm
    have hbe : e[k] < 2 ^ m :=
      Nat.lt_of_lt_of_le (he.2 _ (List.mem_iff_getElem.2 ⟨k, h1, rfl⟩)) h256
    have hbf : f[k] < 2 ^ m :=
      Nat.lt_of_lt_of_le (hf.2 _ (List.mem_iff_getElem.2 ⟨k, h2, rfl⟩)) h256
    rw [Nat.testBit_lt_two_pow hbe, Nat.testBit_lt_two_pow hbf]

/-! ### SetBit -/

theorem length_SetBit (e : Row) (i : Nat) (x : Bool) :
    (Row.SetBit e i x).length = e.length := by
  unfold Row.SetBit
  dsimp only
  split <;> simp

theorem tBit_SetBit_self {e : Row} {i : Nat} (hi : i / 8 < e.length) (x : Bool) :
    Row.tBit (Row.SetBit e i x) i = x := by
  have hb : Row.tBit e i = ((List.getD e (i / 8) 0).testBit (i % 8)) := rfl
  unfold Row.SetBit
  dsimp only
  have hone : (1 : Nat) <<< (i % 8) = 2 ^ (i % 8) := Nat.one_shiftLeft _
  split
  · rename_i hcond
    unfold Row.tBit
    rw [List.getD_eq_getElem?_getD, List.getElem?_set_self hi, Option.getD_some,
      hone, Nat.testBit_xor, Nat.testBit_two_pow_self]
    rcases hcond with ⟨h0, hx⟩ | ⟨h1, hx⟩
    · rw [hx]
      have : Row.tBit e i = false := (GetBit_eq_zero_iff e i).1 h0
      unfold Row.tBit at this
      rw [this]
      rfl
    · rw [hx]
      have : Row.tBit e i = true := (GetBit_eq_one_iff e i).1 h1
      unfold Row.tBit at this
      rw [this]
      rfl
  · rename_i hcond
    cases x
    · cases htb : Row.tBit e i
      · rfl
      · exact absurd (Or.inr ⟨(GetBit_eq_one_iff e i).2 htb, rfl⟩) hcond
    · cases htb : Row.tBit e i
      · exact absurd (Or.inl ⟨(GetBit_eq_zero_iff e i).2 htb, rfl⟩) hcond
      · rfl

theorem tBit_SetBit_other {e : Row} {i j : Nat} (hij : j ≠ i) (x : Bool) :
    Row.tBit (Row.SetBit e i x) j = Row.tBit e j := by
  unfold Row.SetBit
  dsimp only
  split
  · unfold Row.tBit
    rcases Nat.decEq (j / 8) (i / 8) with hq | hq
    · rw [List.getD_eq_getElem?_getD, List.getElem?_set_ne (fun h => hq (h.symm)),
        ← List.getD_eq_getElem?_getD]
    · -- same byte, different bit position
      have hmod : j % 8 ≠ i % 8 := by omega
      rcases Nat.lt_or_ge (i / 8) e.length with hlt | hge
      · rw [hq, List.getD_eq_getElem?_getD, List.getElem?_set_self hlt, Option.getD_some,
          Nat.one_shiftLeft, Nat.testBit_xor, Nat.testBit_two_pow_of_ne hmod.symm,
          List.getD_eq_getElem?_getD, List.getElem?_eq_getElem hlt]
        simp
      · rw [List.set_eq_of_length_le hge]
  · rfl

theorem WFRow.SetBit {w : Nat} {e : Row} (h : WFRow w e) (i : Nat) (x : Bool) :
    WFRow w (Row.SetBit e i x) := by
  constructor
  · rw [length_SetBit, h.1]
  · intro b hb
    unfold Row.SetBit at hb
    dsimp only at hb
    split at hb
    · rcases List.mem_or_eq_of_mem_set hb with hmem | heq
      · exact h.2 _ hmem
      · subst heq
        have h1 : List.getD e (i / 8) 0 < 256 := h.getD_lt _
        have h2 : (1 : Nat) <<< (i % 8) < 256 := by
          rw [Nat.one_shiftLeft]
          calc (2 : Nat) ^ (i % 8) ≤ 2 ^ 7 := Nat.pow_le_pow_right (by norm_num) (by omega)
          _ < 256 := by norm_num
        exact Nat.xor_lt_two_pow (n := 8) h1 h2
    · exact h.2 _ hb

/-! ### Row.Add -/

theorem length_RowAdd (e f : Row) :
    (Row.Add e f).length = min e.length f.length := by
  unfold Row.Add; simp

theorem getD_RowAdd {e f : Row} (hl : e.length = f.length) {k : Nat} (hk : k < e.length) :
    List.getD (Row.Add e f) k 0 = List.getD e k 0 ^^^ List.getD f k 0 := by
  unfold Row.Add
  rw [List.getD_eq_getElem?_getD,
    List.getElem?_eq_getElem (by simp [hl] at hk ⊢; omega),
    List.getElem_zipWith, Option.getD_some,
    List.getD_eq_getElem?_getD, List.getElem?_eq_getElem hk,
    List.getD_eq_getElem?_getD, List.getElem?_eq_getElem (hl ▸ hk)]
  rfl

theorem tBit_RowAdd {e f : Row} (hl : e.length = f.length) (i : Nat) :
    Row.tBit (Row.Add e f) i = xor (Row.tBit e i) (Row.tBit f i) := by
  unfold Row.tBit
  rcases Nat.lt_or_ge (i / 8) e.length with hk | hk
  · rw [getD_RowAdd hl hk, Nat.testBit_xor]
  · have h1 : List.getD e (i / 8) 0 = 0 := by
      simp [List.getD_eq_getElem?_getD, List.getElem?_eq_none hk]
    have h2 : List.getD f (i / 8) 0 = 0 := by
      simp [List.getD_eq_getElem?_getD, List.getElem?_eq_none (hl ▸ hk)]
    have h3 : List.getD (Row.Add e f) (i / 8) 0 = 0 := by
      have : (Row.Add e f).length ≤ i / 8 := by rw [length_RowAdd, hl]; omega
      simp [List.getD_eq_getElem?_getD, List.getElem?_eq_none this]
    rw [h1, h2, h3]
    simp

theorem WFRow.RowAdd {w : Nat} {e f : Row} (he : WFRow w e) (hf : WFRow w f) :
    WFRow w (Row.Add e f) := by
  constructor
  · rw [length_RowAdd, he.1, hf.1]; omega
  · intro b hb
    unfold Row.Add at hb
    rcases List.mem_iff_getElem.1 hb with ⟨k, hk, hbk⟩
    subst hbk
    rw [List.getElem_zipWith]
    have hke : k < e.length := by
      simp only [List.length_zipWith] at hk; omega
    have hkf : k < f.length := by
      simp only [List.length_zipWith] at hk; omega
    exact Nat.xor_lt_two_pow (n := 8)
      (he.2 _ (List.mem_iff_getElem.2 ⟨k, hke, rfl⟩))
      (hf.2 _ (List.mem_iff_getElem.2 ⟨k, hkf, rfl⟩))

/-! ### Zero and unit rows -/

theorem tBit_replicate_zero (w i : Nat) :
    Row.tBit (List.replicate w 0) i = false := by
  unfold Row.tBit
  rcases Nat.lt_or_ge (i / 8) w with hk | hk
  · rw [List.getD_eq_getElem?_getD, List.getElem?_eq_getElem (by simp [hk]),
      List.getElem_replicate]
    simp
  · simp [List.getD_eq_getElem?_getD,
      List.getElem?_eq_none (by simp only [List.length_replicate]; omega : (List.replicate w (0 : Nat)).length ≤ i / 8)]

theorem WFRow.replicate_zero (w : Nat) : WFRow w (List.replicate w 0) := by
  constructor
  · simp
  · intro b hb
    rw [List.eq_of_mem_replicate hb]
    norm_num

/-! ### Generic fold helpers -/

theorem foldl_const {α : Type} {g : α → Nat → α} {st : α} {l : List Nat}
    (h : ∀ i ∈ l, g st i = st) : List.foldl g st l = st := by
  induction l with
  | nil => rfl
  | cons a l ih =>
    rw [List.foldl_cons, h a (by simp)]
    exact ih (fun i hi => h i (by simp [hi]))

theorem foldl_setRow_length (g : Nat → Row → Row) (l : List Nat) (m : BitMatrix) :
    (List.foldl (fun out k => List.set out k (g k (List.getD out k []))) m l).length
      = m.length := by
  induction l generalizing m with
  | nil => rfl
  | cons a l ih => rw [List.foldl_cons, ih]; simp

theorem foldl_setRow_getD (g : Nat → Row → Row) (n : Nat) (m : BitMatrix)
    (hn : n ≤ m.length) (i : Nat) :
    List.getD
      (List.foldl (fun out k => List.set out k (g k (List.getD out k []))) m (List.range n))
      i []
    = if i < n then g i (List.getD m i []) else List.getD m i [] := by
  induction n with
  | zero => simp
  | succ n ih =>
    rw [List.range_succ, List.foldl_append]
    set prev := List.foldl (fun out k => List.set out k (g k (List.getD out k []))) m
      (List.range n) with hprev
    have hplen : prev.length = m.length := foldl_setRow_length g (List.range n) m
    simp only [List.foldl_cons, List.foldl_nil]
    by_cases hin : i = n
    · subst hin
      have hgd : List.getD prev i [] = List.getD m i [] := by
        rw [ih (by omega)]; simp
      have hlt : i < prev.length := by omega
      rw [List.getD_eq_getElem?_getD, List.getElem?_set_self hlt, Option.getD_some, hgd]
      simp
    · rw [List.getD_eq_getElem?_getD, List.getElem?_set_ne (fun h => hin h.symm),
        ← List.getD_eq_getElem?_getD, ih (by omega)]
      have : i < n + 1 ↔ i < n := by omega
      simp [this]

/-! ### GenerateIdentity -/

theorem GenerateIdentity_length (n : Nat) : (GenerateIdentity n).length = n := by
  have h := foldl_setRow_length (fun k r => Row.SetBit r k true) (List.range n)
    (GenerateEmpty n)
  have h2 : (GenerateEmpty n).length = n := by simp [GenerateEmpty]
  exact h.trans h2

theorem GenerateEmpty_getD {n i : Nat} (h : i < n) :
    List.getD (GenerateEmpty n) i [] = List.replicate (n / 8) 0 := by
  unfold GenerateEmpty
  rw [List.getD_eq_getElem?_getD, List.getElem?_eq_getElem (by simp [h]),
    List.getElem_replicate, Option.getD_some]

theorem GenerateIdentity_getD {n i : Nat} (h : i < n) :
    List.getD (GenerateIdentity n) i []
      = Row.SetBit (List.replicate (n / 8) 0) i true := by
  have h2 := foldl_setRow_getD (fun k r => Row.SetBit r k true) n (GenerateEmpty n)
    (by simp [GenerateEmpty]) i
  rw [if_pos h, GenerateEmpty_getD h] at h2
  exact h2

theorem tBit_GenerateIdentity {n : Nat} (h8 : n % 8 = 0) {i : Nat} (hi : i < n) (j : Nat) :
    Row.tBit (List.getD (GenerateIdentity n) i []) j = decide (j = i) := by
  rw [GenerateIdentity_getD hi]
  by_cases hj : j = i
  · subst hj
    rw [tBit_SetBit_self (by simp only [List.length_replicate]; omega)]
    simp
  · rw [tBit_SetBit_other hj, tBit_replicate_zero]
    simp [hj]

theorem WFMat_GenerateIdentity (n : Nat) : WFMat n (n / 8) (GenerateIdentity n) := by
  refine ⟨GenerateIdentity_length n, ?_⟩
  intro r hr
  rcases List.mem_iff_getElem.1 hr with ⟨i, hilt, hri⟩
  have hin : i < n := by rw [GenerateIdentity_length n] at hilt; exact hilt
  have : r = List.getD (GenerateIdentity n) i [] := by
    rw [List.getD_eq_getElem?_getD, List.getElem?_eq_getElem hilt, Option.getD_some, hri]
  rw [this, GenerateIdentity_getD hin]
  exact (WFRow.replicate_zero _).SetBit i true

/-! ### SizeChk on well-formed matrices -/

theorem SizeChk_eq_some {n w : Nat} {e : BitMatrix} (h : WFMat n w e) (hn : 0 < n) :
    BitMatrix.SizeChk e = some (n, 8 * w) := by
  match e with
  | [] =>
    exfalso
    have := h.1
    simp at this
    omega
  | r :: rest =>
    show some ((r :: rest).length, Row.Size r) = some (n, 8 * w)
    have h1 : (r :: rest).length = n := h.1
    have h2 : WFRow w r := h.2 r (by simp)
    rw [h1]
    unfold Row.Size
    rw [h2.1]

theorem InvertChk_eq_some {n w : Nat} {e : BitMatrix} (h : WFMat n w e) (hn : 0 < n)
    (hsq : n = 8 * w) : BitMatrix.InvertChk e = some (BitMatrix.Invert e) := by
  unfold BitMatrix.InvertChk
  rw [SizeChk_eq_some h hn]
  simp only [Option.bind_eq_bind, Option.some_bind]
  rw [if_neg (by omega : ¬n ≠ 8 * w)]

/-! ### The sentinel failure of Invert at n = 256 (C2) -/

theorem set_getD_self (m : BitMatrix) (i : Nat) :
    List.set m i (List.getD m i []) = m := by
  rcases Nat.lt_or_ge i m.length with hlt | hge
  · apply List.ext_getElem (by simp)
    intro k h1 h2
    by_cases hik : i = k
    · subst hik
      rw [List.getElem_set_self]
      rw [List.getD_eq_getElem?_getD, List.getElem?_eq_getElem hlt, Option.getD_some]
    · rw [List.getElem_set_ne hik]
  · exact List.set_eq_of_length_le hge

theorem swapRows_self (m : BitMatrix) (i : Nat) : swapRows m i i = m := by
  unfold swapRows
  rw [set_getD_self, set_getD_self]

theorem invertLoop_succ (a fuel row : Nat) (f out : BitMatrix) :
    invertLoop a (fuel + 1) row f out =
      if scanPivot f row (a - row) row = 255 then (out, false)
      else
        invertLoop a fuel (row + 1)
          (elimLoop row a (swapRows f row (scanPivot f row (a - row) row),
            swapRows out row (scanPivot f row (a - row) row))).1
          (elimLoop row a (swapRows f row (scanPivot f row (a - row) row),
            swapRows out row (scanPivot f row (a - row) row))).2 := rfl

theorem scanPivot_identity {n row : Nat} (h8 : n % 8 = 0) (hrow : row < n) (fuel : Nat)
    (hfuel : 0 < fuel) :
    scanPivot (GenerateIdentity n) row fuel row = row := by
  obtain ⟨k, rfl⟩ : ∃ k, fuel = k + 1 := ⟨fuel - 1, by omega⟩
  have hbit : Row.GetBit (List.getD (GenerateIdentity n) row []) row = 1 := by
    rw [GetBit_eq_one_iff, tBit_GenerateIdentity h8 hrow]
    simp
  unfold scanPivot
  rw [if_pos hbit]

theorem elimLoop_identity {n row a : Nat} (h8 : n % 8 = 0) (ha : a ≤ n) (out : BitMatrix) :
    elimLoop row a (GenerateIdentity n, out) = (GenerateIdentity n, out) := by
  unfold elimLoop
  apply foldl_const
  intro i hi
  have hia : i < n := by
    have := List.mem_range.1 hi
    omega
  unfold elimStep
  by_cases hir : i = row
  · rw [if_pos hir]
  · have hbit : ¬ Row.GetBit (List.getD (GenerateIdentity n, out).1 i []) row = 1 := by
      show ¬ Row.GetBit (List.getD (GenerateIdentity n) i []) row = 1
      rw [GetBit_eq_one_iff, tBit_GenerateIdentity h8 hia]
      simp only [decide_eq_true_eq]
      exact fun h => hir h.symm
    rw [if_neg hir, if_neg hbit]

theorem invertLoop_identity_256 :
    ∀ fuel row, row + fuel = 256 → row ≤ 255 → ∀ out,
      (invertLoop 256 fuel row (GenerateIdentity 256) out).2 = false := by
  intro fuel
  induction fuel with
  | zero => intro row h1 h2; omega
  | succ k ih =>
    intro row h1 h2 out
    have hrowlt : row < 256 := by omega
    have hscan : scanPivot (GenerateIdentity 256) row (256 - row) row = row :=
      scanPivot_identity (by norm_num) hrowlt _ (by omega)
    rw [invertLoop_succ, hscan]
    by_cases h255 : row = 255
    · rw [if_pos h255]
    · rw [if_neg h255, swapRows_self, swapRows_self,
        elimLoop_identity (n := 256) (by norm_num) (by omega)]
      exact ih (row + 1) (by omega) (by omega) out

/-- C2, the failing input: the source's pivot scan uses 255 as its
"no pivot found" sentinel, so at dimension 256 the legitimate pivot found
at row index 255 is mistaken for failure and `Invert` reports the identity
matrix as singular, although for every column `c` a row in `c..n-1` (namely
row `c` itself) has bit `c` set. -/
theorem C2_invert_identity_256_fails :
    (BitMatrix.Invert (GenerateIdentity 256)).2 = false ∧
    BitMatrix.InvertChk (GenerateIdentity 256)
      = some (BitMatrix.Invert (GenerateIdentity 256)) := by
  have hlen : (GenerateIdentity 256).length = 256 := GenerateIdentity_length 256
  have hmain : (BitMatrix.Invert (GenerateIdentity 256)).2 = false := by
    unfold BitMatrix.Invert
    rw [hlen]
    exact invertLoop_identity_256 256 0 (by omega) (by omega) _
  refine ⟨hmain, ?_⟩
  exact InvertChk_eq_some (WFMat_GenerateIdentity 256) (by norm_num) (by norm_num)

/-! ### C10: operations on the empty matrix panic through Size -/

/-- C10: `Size()` on a zero-row matrix reads `e[0]` and panics, and so do
`Mul`, `Invert` and `Trace`, all of which call `e.Size()` first; none of
them returns a `(0, 0)` shape. -/
theorem C10_empty_matrix_panics :
    BitMatrix.SizeChk [] = none ∧ (∀ f : Row, BitMatrix.MulChk [] f = none) ∧
    BitMatrix.InvertChk [] = none ∧ BitMatrix.TraceChk [] = none :=
  ⟨rfl, fun _ => rfl, rfl, rfl⟩

/-- Witness for C10 at the concrete vector `[5]`. -/
theorem C10_empty_matrix_panics_witness : BitMatrix.MulChk [] [5] = none :=
  C10_empty_matrix_panics.2.1 [5]

/-! ### C6: fail-fast on non-square inputs (Invert yes, Trace no) -/

/-- C6 counterexample: the 1×8 matrix `[[1]]` is not square
(`Size` returns `(1, 8)`), yet `Trace()` does not panic on it — the source
contains no squareness check in `Trace` — and returns 1. -/
theorem C6_counterexample :
    BitMatrix.SizeChk [[1]] = some (1, 8) ∧ (1 : Nat) ≠ 8 ∧
    BitMatrix.TraceChk [[1]] = some 1 := by decide

/-- C6 (amended): `Invert()` fails fast with a panic on every non-square
matrix, before any mutation; `Trace()` performs no squareness check and
completes normally on a non-square matrix whenever the `e[i][0]` reads hit
nonempty rows. -/
theorem C6_amended (e : BitMatrix) (a b : Nat) (h : BitMatrix.SizeChk e = some (a, b))
    (hab : a ≠ b) :
    BitMatrix.InvertChk e = none ∧
    ((∀ r ∈ e, r ≠ []) → BitMatrix.TraceChk e = some (BitMatrix.Trace e)) := by
  constructor
  · unfold BitMatrix.InvertChk
    rw [h]
    simp [hab]
  · intro hr
    unfold BitMatrix.TraceChk
    rw [h]
    simp only [Option.bind_eq_bind, Option.some_bind]
    rw [if_pos]
    rw [List.all_eq_true]
    intro r hrm
    simpa [List.isEmpty_iff] using hr r hrm

/-- Witness for C6 at the non-square matrix `[[1]]`. -/
theorem C6_amended_witness :
    BitMatrix.InvertChk [[1]] = none ∧ BitMatrix.TraceChk [[1]] = some (BitMatrix.Trace [[1]]) := by
  have h := C6_amended [[1]] 1 8 rfl (by decide)
  exact ⟨h.1, h.2 (by decide)⟩

/-! ### C3: Trace reads byte 0 instead of the diagonal -/

/-- The quantity the claim (and the spec) describe: the xor of the diagonal
bits `M[i].GetBit(i)`. -/
def diagParity (e : BitMatrix) : Nat :=
  List.foldl (fun out i => out ^^^ Row.GetBit (List.getD e i []) i) 0 (List.range e.length)

/-- The 16×16 matrix whose only set bit is bit 8 of row 8. -/
def traceCounterM : BitMatrix := List.set (GenerateEmpty 16) 8 [0, 1]

/-- C3, the failing input: on the square 16×16 matrix with the single
diagonal bit (8,8) set, the claimed value (xor of `M[i].GetBit(i)`) is 1,
but `Trace()` returns 0 — the source computes `(e[i][0] >> i) & 1`, reading
byte 0 of every row, which is identically 0 once `i ≥ 8`. -/
theorem C3_trace_bug :
    BitMatrix.Trace traceCounterM = 0 ∧ diagParity traceCounterM = 1 ∧
    BitMatrix.SizeChk traceCounterM = some (16, 16) := by decide

/-! ### C5: GenerateRandom -/

theorem InvertChk_some {e : BitMatrix} {pr : BitMatrix × Bool}
    (h : BitMatrix.InvertChk e = some pr) : pr = BitMatrix.Invert e := by
  unfold BitMatrix.InvertChk at h
  cases hs : BitMatrix.SizeChk e with
  | none => rw [hs] at h; simp at h
  | some ab =>
    rw [hs] at h
    simp only [Option.bind_eq_bind, Option.some_bind] at h
    split at h
    · simp at h
    · simp at h
      exact h.symm

theorem drawMatrix_length (stream : Nat → Nat) (pos n : Nat) :
    (drawMatrix stream pos n).length = n := by
  unfold drawMatrix
  simp

theorem drawMatrix_rows (stream : Nat → Nat) (pos n : Nat) :
    ∀ r ∈ drawMatrix stream pos n, r.length = n / 8 := by
  intro r hr
  unfold drawMatrix at hr
  rcases List.mem_map.1 hr with ⟨i, _, hri⟩
  rw [← hri]
  unfold readRow
  simp

/-- C5: a matrix returned by `GenerateRandom` is always `n × n` with rows of
`n/8` bytes and passes the `Invert` test, and on a singular draw the whole
matrix is discarded and a completely fresh `n × n` matrix is drawn from the
following bytes of the reader. -/
theorem C5_GenerateRandom (stream : Nat → Nat) (n fuel pos : Nat) (m : BitMatrix) (p : Nat) :
    (GenerateRandom stream n fuel pos = some (m, p) →
      m.length = n ∧ (∀ r ∈ m, r.length = n / 8) ∧ (BitMatrix.Invert m).2 = true) ∧
    (∀ q : BitMatrix, BitMatrix.InvertChk (drawMatrix stream pos n) = some (q, false) →
      GenerateRandom stream n (fuel + 1) pos
        = GenerateRandom stream n fuel (pos + n * (n / 8))) := by
  constructor
  · induction fuel generalizing pos with
    | zero => intro h; exact absurd h (by rw [GenerateRandom]; simp)
    | succ fuel ih =>
      intro h
      rw [GenerateRandom] at h
      cases hchk : BitMatrix.InvertChk (drawMatrix stream pos n) with
      | none => rw [hchk] at h; simp at h
      | some pr =>
        rw [hchk] at h
        obtain ⟨q, ok⟩ := pr
        by_cases hok : ok
        · subst hok
          simp only [if_true] at h
          have hm : m = drawMatrix stream pos n := by
            have h3 := Option.some.inj h
            exact (congrArg Prod.fst h3).symm
          subst hm
          refine ⟨drawMatrix_length stream pos n, drawMatrix_rows stream pos n, ?_⟩
          have := InvertChk_some hchk
          have h2 := congrArg Prod.snd this
          simp at h2
          exact h2
        · have hok' : ok = false := by cases ok <;> simp_all
          subst hok'
          simp only [Bool.false_eq_true, if_false] at h
          exact ih (pos + n * (n / 8)) h
  · intro q hq
    rw [GenerateRandom, hq]
    simp

/-- The deterministic byte stream used to witness C5: the bytes of the
8×8 identity matrix. -/
def wstream : Nat → Nat := fun i => List.getD [1, 2, 4, 8, 16, 32, 64, 128] i 0

/-- Witness for C5: at `n = 8`, fuel 1, the stream above yields a matrix
that is 8×8 and passes the invertibility test. -/
theorem C5_GenerateRandom_witness :
    (drawMatrix wstream 0 8).length = 8 ∧ (BitMatrix.Invert (drawMatrix wstream 0 8)).2 = true := by
  have h := (C5_GenerateRandom wstream 8 1 0 (drawMatrix wstream 0 8) 8).1 (by decide)
  exact ⟨h.1, h.2.2⟩

/-! ### C8: DotProduct computes the GF(2) inner product -/

/-- The single-byte parity lookup performed by `DotProduct`. -/
def tablePar (g : Nat) : Nat := (List.getD weight (g / 64) 0 >>> (g % 64)) &&& 1

/-- Number of set bits among bits 0..7 of a byte. -/
def pop8 (g : Nat) : Nat := ((List.range 8).map (fun k => (g.testBit k).toNat)).sum

/-- The `weight` table holds exactly the bit-count parity of each byte. -/
theorem tablePar_eq_fin : ∀ g : Fin 256, tablePar g.val = pop8 g.val % 2 := by decide

theorem tablePar_eq {g : Nat} (hg : g < 256) : tablePar g = pop8 g % 2 :=
  tablePar_eq_fin ⟨g, hg⟩

theorem tablePar_lt_two (g : Nat) : tablePar g < 2 :=
  Nat.lt_succ_of_le Nat.and_le_right

theorem xor_of_lt_two {a b : Nat} (ha : a < 2) (hb : b < 2) : a ^^^ b = (a + b) % 2 := by
  interval_cases a <;> interval_cases b <;> rfl

theorem foldl_tablePar (l : List Nat) (hb : ∀ g ∈ l, g < 256) (acc : Nat) (hacc : acc < 2) :
    List.foldl
      (fun parity g => parity ^^^ ((List.getD weight (g / 64) 0 >>> (g % 64)) &&& 1)) acc l
    = (acc + (l.map pop8).sum) % 2 := by
  induction l generalizing acc with
  | nil => simp; omega
  | cons g l ih =>
    rw [List.foldl_cons]
    have hg : g < 256 := hb g (by simp)
    have hstep : acc ^^^ ((List.getD weight (g / 64) 0 >>> (g % 64)) &&& 1)
        = (acc + pop8 g % 2) % 2 := by
      have h1 : acc ^^^ tablePar g = (acc + tablePar g) % 2 :=
        xor_of_lt_two hacc (tablePar_lt_two g)
      rw [show ((List.getD weight (g / 64) 0 >>> (g % 64)) &&& 1) = tablePar g from rfl,
        h1, tablePar_eq hg]
    rw [hstep, ih (fun x hx => hb x (by simp [hx])) _ (Nat.mod_lt _ (by norm_num))]
    simp only [List.map_cons, List.sum_cons]
    omega

theorem mul_bytes_lt {e f : Row} (he : ∀ b ∈ e, b < 256) :
    ∀ g ∈ Row.Mul e f, g < 256 := by
  intro g hg
  unfold Row.Mul at hg
  rcases List.mem_iff_getElem.1 hg with ⟨k, hk, hgk⟩
  subst hgk
  rw [List.getElem_zipWith]
  have hke : k < e.length := by simp only [List.length_zipWith] at hk; omega
  exact Nat.lt_of_le_of_lt Nat.and_le_left (he _ (List.mem_iff_getElem.2 ⟨k, hke, rfl⟩))

theorem countP_range_eq_sum (p : Nat → Bool) (n : Nat) :
    List.countP p (List.range n) = ((List.range n).map (fun i => (p i).toNat)).sum := by
  induction n with
  | zero => rfl
  | succ n ih =>
    rw [List.range_succ, List.countP_append, List.map_append, List.sum_append, ih]
    simp [List.countP_cons]
    cases p n <;> simp

theorem GetBit_cons_add8 (a : Nat) (e : Row) (i : Nat) :
    Row.GetBit (a :: e) (8 + i) = Row.GetBit e i := by
  unfold Row.GetBit
  have h1 : (8 + i) / 8 = i / 8 + 1 := by omega
  have h2 : (8 + i) % 8 = i % 8 := by omega
  rw [h1, h2]
  rfl

theorem GetBit_cons_lt8 (a : Nat) (e : Row) {i : Nat} (hi : i < 8) :
    Row.GetBit (a :: e) i = (a.testBit i).toNat := by
  rw [GetBit_eq_tBit]
  unfold Row.tBit
  have h1 : i / 8 = 0 := by omega
  have h2 : i % 8 = i := by omega
  rw [h1, h2]
  rfl

/-- The number of positions at which both rows have a set bit — the quantity
named by the claim. -/
def commonBits (e f : Row) : Nat :=
  List.countP (fun i => Row.GetBit e i == 1 && Row.GetBit f i == 1)
    (List.range (Row.Size e))

theorem sum_pop8_mul (e f : Row) (hl : e.length = f.length) :
    ((Row.Mul e f).map pop8).sum = commonBits e f := by
  induction e generalizing f with
  | nil =>
    have : f = [] := by
      cases f with
      | nil => rfl
      | cons b f => simp at hl
    subst this
    rfl
  | cons a e ih =>
    cases f with
    | nil => simp at hl
    | cons b f =>
      have hl' : e.length = f.length := by simpa using hl
      show ((Row.Mul (a :: e) (b :: f)).map pop8).sum = commonBits (a :: e) (b :: f)
      have hmul : Row.Mul (a :: e) (b :: f) = (a &&& b) :: Row.Mul e f := rfl
      rw [hmul, List.map_cons, List.sum_cons, ih f hl']
      unfold commonBits
      have hsz : Row.Size (a :: e) = 8 + Row.Size e := by
        unfold Row.Size; simp; omega
      rw [hsz, List.range_add, List.countP_append, List.countP_map]
      have hhead :
          List.countP (fun i => Row.GetBit (a :: e) i == 1 && Row.GetBit (b :: f) i == 1)
            (List.range 8) = pop8 (a &&& b) := by
        rw [countP_range_eq_sum]
        unfold pop8
        apply congrArg
        apply List.map_congr_left
        intro i hi
        have hi8 : i < 8 := List.mem_range.1 hi
        rw [GetBit_cons_lt8 a e hi8, GetBit_cons_lt8 b f hi8, Nat.testBit_and]
        cases a.testBit i <;> cases b.testBit i <;> rfl
      have htail :
          List.countP
            ((fun i => Row.GetBit (a :: e) i == 1 && Row.GetBit (b :: f) i == 1) ∘ (8 + ·))
            (List.range (Row.Size e))
          = List.countP (fun i => Row.GetBit e i == 1 && Row.GetBit f i == 1)
              (List.range (Row.Size e)) := by
        apply List.countP_congr
        intro i _
        simp [Function.comp, GetBit_cons_add8]
      rw [hhead, htail]

/-- C8: `DotProduct` returns `true` exactly when the number of positions at
which both rows have a set bit is odd — the GF(2) inner product — computed
via the fixed per-byte parity table `weight`. -/
theorem C8_DotProduct (e f : Row) (hl : e.length = f.length)
    (he : ∀ b ∈ e, b < 256) :
    Row.DotProduct e f = true ↔ Odd (commonBits e f) := by
  unfold Row.DotProduct
  rw [foldl_tablePar (Row.Mul e f) (mul_bytes_lt he) 0 (by norm_num),
    sum_pop8_mul e f hl]
  rw [Nat.odd_iff]
  simp

/-- Witness for C8: rows `[6]` and `[5]` share exactly one set bit
(position 2), so the dot product is 1. -/
theorem C8_DotProduct_witness :
    Row.DotProduct [6] [5] = true ∧ commonBits [6] [5] = 1 := by
  have h := C8_DotProduct [6] [5] rfl (by decide)
  have hc : commonBits [6] [5] = 1 := by decide
  exact ⟨h.2 (by rw [hc]; decide), hc⟩

/-! ### The GF(2) view: rows as vectors over ZMod 2, matrices as Mathlib
matrices. -/

/-- The vector over `ZMod 2` packed in a row (restricted to `n` bits). -/
def vOf (n : Nat) (v : Row) : Fin n → ZMod 2 :=
  fun i => if Row.tBit v i.val then 1 else 0

/-- The `n × n` `ZMod 2` matrix packed in a `BitMatrix`: entry `(i, j)` is
bit `j` of row `i`. -/
def mOf (n : Nat) (m : BitMatrix) : Matrix (Fin n) (Fin n) (ZMod 2) :=
  Matrix.of fun i j => vOf n (List.getD m i.val []) j

theorem vOf_add {n : Nat} {e f : Row} (hl : e.length = f.length) :
    vOf n (Row.Add e f) = vOf n e + vOf n f := by
  funext i
  show (if Row.tBit (Row.Add e f) i.val then (1 : ZMod 2) else 0)
      = (if Row.tBit e i.val then (1 : ZMod 2) else 0) + (if Row.tBit f i.val then 1 else 0)
  rw [tBit_RowAdd hl]
  cases Row.tBit e i.val <;> cases Row.tBit f i.val <;> decide

theorem vOf_inj {n w : Nat} {e f : Row} (hw : n = 8 * w) (he : WFRow w e) (hf : WFRow w f)
    (h : vOf n e = vOf n f) : e = f := by
  apply row_ext he hf
  intro i hi
  have := congrFun h ⟨i, by omega⟩
  simp only [vOf] at this
  cases h1 : Row.tBit e i <;> cases h2 : Row.tBit f i
  · rfl
  · rw [h1, h2] at this; exact absurd this (by decide)
  · rw [h1, h2] at this; exact absurd this (by decide)
  · rfl

theorem natCast_zmod2 (m : Nat) : (m : ZMod 2) = if m % 2 = 1 then 1 else 0 := by
  conv_lhs => rw [← Nat.div_add_mod m 2]
  push_cast
  rw [show (2 : ZMod 2) = 0 by decide]
  rw [zero_mul, zero_add]
  rcases Nat.mod_two_eq_zero_or_one m with h | h <;> rw [h] <;> simp

theorem countP_range_finsum (p : Nat → Bool) (n : Nat) :
    List.countP p (List.range n) = ∑ i ∈ Finset.range n, (p i).toNat := by
  induction n with
  | zero => rfl
  | succ n ih =>
    rw [List.range_succ, List.countP_append, Finset.sum_range_succ, ih]
    simp [List.countP_cons]
    cases p n <;> rfl

theorem beq_one_eq_tBit (e : Row) (i : Nat) : (Row.GetBit e i == 1) = Row.tBit e i := by
  rw [GetBit_eq_tBit]
  cases Row.tBit e i <;> rfl

/-- The GF(2) inner product of the vector views equals the parity of
`commonBits`. -/
theorem dot_vOf {n w : Nat} (hw : n = 8 * w) {e f : Row} (he : WFRow w e) :
    ∑ j : Fin n, vOf n e j * vOf n f j = ((commonBits e f : Nat) : ZMod 2) := by
  have hterm : ∀ j : Fin n, vOf n e j * vOf n f j
      = (((Row.tBit e j.val && Row.tBit f j.val).toNat : Nat) : ZMod 2) := by
    intro j
    show (if Row.tBit e j.val then (1 : ZMod 2) else 0) * (if Row.tBit f j.val then 1 else 0) = _
    cases Row.tBit e j.val <;> cases Row.tBit f j.val <;> decide
  rw [Finset.sum_congr rfl (fun j _ => hterm j)]
  rw [← Nat.cast_sum]
  apply congrArg
  unfold commonBits
  rw [countP_range_finsum]
  have hsz : Row.Size e = n := by unfold Row.Size; rw [he.1]; omega
  rw [hsz, ← Fin.sum_univ_eq_sum_range (fun i => ((Row.GetBit e i == 1 && Row.GetBit f i == 1)).toNat) n]
  apply Finset.sum_congr rfl
  intro j _
  rw [beq_one_eq_tBit, beq_one_eq_tBit]

/-- `DotProduct` as a `ZMod 2` scalar is the inner product of the vector
views. -/
theorem DotProduct_vOf {n w : Nat} (hw : n = 8 * w) {e f : Row}
    (he : WFRow w e) (hf : WFRow w f) :
    (if Row.DotProduct e f then (1 : ZMod 2) else 0) = ∑ j : Fin n, vOf n e j * vOf n f j := by
  rw [dot_vOf hw he, natCast_zmod2]
  have hc := C8_DotProduct e f (he.1.trans hf.1.symm) he.2
  rw [Nat.odd_iff] at hc
  by_cases hd : Row.DotProduct e f
  · rw [if_pos hd, if_pos (hc.1 hd)]
  · rw [if_neg hd]
    have : ¬ commonBits e f % 2 = 1 := fun h => hd (hc.2 h)
    rw [if_neg this]

/-! ### BitMatrix.Mul as matrix-vector multiplication -/

/-- The partial fold of `BitMatrix.Mul` over the first `k` rows: its length
is stable and bit `j` is set exactly for the processed `j` with odd inner
product. -/
theorem Mul_fold_spec (M : BitMatrix) (v : Row) (w : Nat) (hw : M.length = 8 * w)
    (k : Nat) (hk : k ≤ M.length) :
    (List.foldl
      (fun res i => if Row.DotProduct (List.getD M i []) v then Row.SetBit res i true else res)
      (List.replicate (M.length / 8) 0) (List.range k)).length = w ∧
    (∀ b ∈ List.foldl
      (fun res i => if Row.DotProduct (List.getD M i []) v then Row.SetBit res i true else res)
      (List.replicate (M.length / 8) 0) (List.range k), b < 256) ∧
    (∀ j : Nat, Row.tBit (List.foldl
      (fun res i => if Row.DotProduct (List.getD M i []) v then Row.SetBit res i true else res)
      (List.replicate (M.length / 8) 0) (List.range k)) j
      = (decide (j < k) && Row.DotProduct (List.getD M j []) v)) := by
  have hw8 : M.length / 8 = w := by omega
  induction k with
  | zero =>
    refine ⟨by simp [hw8], ?_, ?_⟩
    · intro b hb
      simp only [List.range_zero, List.foldl_nil] at hb
      rw [List.eq_of_mem_replicate hb]
      norm_num
    · intro j
      simp only [List.range_zero, List.foldl_nil]
      rw [tBit_replicate_zero]
      simp
  | succ k ih =>
    obtain ⟨ihlen, ihmem, ihbit⟩ := ih (by omega)
    rw [List.range_succ, List.foldl_append, List.foldl_cons, List.foldl_nil]
    set prev := List.foldl
      (fun res i => if Row.DotProduct (List.getD M i []) v then Row.SetBit res i true else res)
      (List.replicate (M.length / 8) 0) (List.range k) with hprev
    have hWprev : WFRow w prev := ⟨ihlen, ihmem⟩
    by_cases hd : Row.DotProduct (List.getD M k []) v
    · rw [if_pos hd]
      refine ⟨(hWprev.SetBit k true).1, (hWprev.SetBit k true).2, ?_⟩
      intro j
      by_cases hjk : j = k
      · subst hjk
        rw [tBit_SetBit_self (by rw [ihlen]; omega)]
        rw [hd, decide_eq_true (by omega : j < j + 1)]
        rfl
      · rw [tBit_SetBit_other hjk, ihbit j,
          decide_eq_decide.2 (show (j < k + 1) ↔ (j < k) by omega)]
    · rw [if_neg hd]
      refine ⟨ihlen, ihmem, ?_⟩
      intro j
      rw [ihbit j]
      by_cases hjk : j = k
      · subst hjk
        have hd' : Row.DotProduct (List.getD M j []) v = false := by
          cases h : Row.DotProduct (List.getD M j []) v
          · rfl
          · exact absurd h hd
        rw [hd']
        simp
      · rw [decide_eq_decide.2 (show (j < k + 1) ↔ (j < k) by omega)]

theorem WFRow_Mul {M : BitMatrix} {v : Row} {w : Nat} (hw : M.length = 8 * w) :
    WFRow w (BitMatrix.Mul M v) := by
  obtain ⟨h1, h2, _⟩ := Mul_fold_spec M v w hw M.length (le_refl _)
  exact ⟨h1, h2⟩

theorem tBit_Mul {M : BitMatrix} {v : Row} {w : Nat} (hw : M.length = 8 * w) (j : Nat) :
    Row.tBit (BitMatrix.Mul M v) j
      = (decide (j < M.length) && Row.DotProduct (List.getD M j []) v) := by
  obtain ⟨_, _, h3⟩ := Mul_fold_spec M v w hw M.length (le_refl _)
  exact h3 j

/-- `BitMatrix.Mul` is `mulVec` of the `ZMod 2` views. -/
theorem vOf_Mul {n w : Nat} {M : BitMatrix} {v : Row} (hsq : n = 8 * w)
    (hM : WFMat n w M) (hv : WFRow w v) :
    vOf n (BitMatrix.Mul M v) = Matrix.mulVec (mOf n M) (vOf n v) := by
  have hlen : M.length = 8 * w := by rw [hM.1]; omega
  funext i
  have hrow : WFRow w (List.getD M i.val []) := by
    have : i.val < M.length := by rw [hM.1]; exact i.isLt
    have hmem : List.getD M i.val [] ∈ M := by
      rw [List.getD_eq_getElem?_getD, List.getElem?_eq_getElem this]
      exact List.mem_iff_getElem.2 ⟨i.val, this, rfl⟩
    exact hM.2 _ hmem
  show (if Row.tBit (BitMatrix.Mul M v) i.val then (1 : ZMod 2) else 0) = _
  rw [tBit_Mul hlen i.val]
  have hilt : i.val < M.length := by rw [hM.1]; exact i.isLt
  rw [decide_eq_true hilt, Bool.true_and]
  have hdot := DotProduct_vOf hsq hrow hv
  rw [hdot]
  rw [Matrix.mulVec]
  rfl

/-- The identity matrix corresponds to `1`. -/
theorem mOf_GenerateIdentity {n : Nat} (h8 : n % 8 = 0) :
    mOf n (GenerateIdentity n) = 1 := by
  ext i j
  show (if Row.tBit (List.getD (GenerateIdentity n) i.val []) j.val then (1 : ZMod 2) else 0)
      = (1 : Matrix (Fin n) (Fin n) (ZMod 2)) i j
  rw [tBit_GenerateIdentity h8 i.isLt, Matrix.one_apply]
  by_cases hij : i = j
  · subst hij; simp
  · have : ¬ (j.val = i.val) := fun h => hij (Fin.ext h.symm)
    simp [hij, this]

/-! ### Elementary row operations as left multiplications -/

/-- The 0/1 matrix of a row-relabelling `g` (row `r` of `permM g * A` is
row `g r` of `A`). -/
def permM (n : Nat) (g : Fin n → Fin n) : Matrix (Fin n) (Fin n) (ZMod 2) :=
  Matrix.of fun r c => if g r = c then 1 else 0

theorem permM_mul {n : Nat} (g : Fin n → Fin n) (A : Matrix (Fin n) (Fin n) (ZMod 2)) :
    permM n g * A = Matrix.of fun r c => A (g r) c := by
  ext r c
  rw [Matrix.mul_apply]
  show (∑ k : Fin n, (if g r = k then (1 : ZMod 2) else 0) * A k c) = A (g r) c
  rw [Finset.sum_congr rfl
    (fun k _ => by rw [ite_mul, one_mul, zero_mul] :
      ∀ k ∈ Finset.univ, (if g r = k then (1 : ZMod 2) else 0) * A k c
        = if g r = k then A k c else 0)]
  rw [Finset.sum_ite_eq]
  simp

/-- The elementary matrix adding row `t` to row `i`. -/
def addE (n : Nat) (i t : Fin n) : Matrix (Fin n) (Fin n) (ZMod 2) :=
  Matrix.of fun r c => (if r = c then 1 else 0) + (if r = i ∧ c = t then 1 else 0)

theorem addE_mul {n : Nat} (i t : Fin n) (A : Matrix (Fin n) (Fin n) (ZMod 2)) :
    addE n i t * A = Matrix.of fun r c => A r c + (if r = i then A t c else 0) := by
  ext r c
  rw [Matrix.mul_apply]
  show (∑ k : Fin n,
      ((if r = k then (1 : ZMod 2) else 0) + (if r = i ∧ k = t then 1 else 0)) * A k c)
    = A r c + (if r = i then A t c else 0)
  have hsplit : ∀ k ∈ Finset.univ,
      ((if r = k then (1 : ZMod 2) else 0) + (if r = i ∧ k = t then 1 else 0)) * A k c
        = (if r = k then A k c else 0) + (if r = i then (if k = t then A k c else 0) else 0) := by
    intro k _
    by_cases hri : r = i
    · simp [hri, add_mul, ite_mul, ite_and]
    · simp [hri, add_mul, ite_mul, ite_and]
  rw [Finset.sum_congr rfl hsplit, Finset.sum_add_distrib, Finset.sum_ite_eq]
  simp only [Finset.mem_univ, if_true]
  apply congrArg
  by_cases hri : r = i
  · simp only [if_pos hri]
    rw [Finset.sum_ite_eq' Finset.univ t (fun k => A k c)]
    simp
  · simp only [if_neg hri]
    simp

/-- `getD` through `List.set`. -/
theorem getD_set (m : BitMatrix) (a : Nat) (x : Row) (b : Nat) :
    List.getD (List.set m a x) b []
      = if b = a ∧ a < m.length then x else List.getD m b [] := by
  by_cases hba : b = a
  · subst hba
    by_cases hlt : b < m.length
    · rw [List.getD_eq_getElem?_getD, List.getElem?_set_self hlt, Option.getD_some,
        if_pos ⟨rfl, hlt⟩]
    · rw [List.set_eq_of_length_le (by omega), if_neg (by tauto)]
  · rw [List.getD_eq_getElem?_getD, List.getElem?_set_ne (fun h => hba h.symm),
      ← List.getD_eq_getElem?_getD, if_neg (by tauto)]

/-- `getD` through `swapRows`. -/
theorem getD_swapRows {m : BitMatrix} {i j : Nat} (hi : i < m.length) (hj : j < m.length)
    (r : Nat) :
    List.getD (swapRows m i j) r []
      = List.getD m (if r = i then j else if r = j then i else r) [] := by
  unfold swapRows
  rw [getD_set, getD_set]
  simp only [List.length_set]
  by_cases hrj : r = j
  · rw [if_pos ⟨hrj, hj⟩]
    by_cases hri : r = i
    · rw [if_pos hri]
      have hij : i = j := by omega
      rw [hij]
    · rw [if_neg hri, if_pos hrj]
  · rw [if_neg (by tauto)]
    by_cases hri : r = i
    · rw [if_pos ⟨hri, hi⟩, if_pos hri]
    · rw [if_neg (by tauto), if_neg hri, if_neg hrj]

theorem length_swapRows (m : BitMatrix) (i j : Nat) :
    (swapRows m i j).length = m.length := by
  unfold swapRows; simp

theorem WFMat.getD_row {n w : Nat} {m : BitMatrix} (h : WFMat n w m) {i : Nat} (hi : i < n) :
    WFRow w (List.getD m i []) := by
  have hlt : i < m.length := by rw [h.1]; exact hi
  have hmem : List.getD m i [] ∈ m := by
    rw [List.getD_eq_getElem?_getD, List.getElem?_eq_getElem hlt]
    exact List.mem_iff_getElem.2 ⟨i, hlt, rfl⟩
  exact h.2 _ hmem

theorem WFMat.swapRows {n w : Nat} {m : BitMatrix} (h : WFMat n w m) {i j : Nat}
    (hi : i < n) (hj : j < n) : WFMat n w (AES.swapRows m i j) := by
  constructor
  · rw [length_swapRows, h.1]
  · intro r hr
    unfold AES.swapRows at hr
    rcases List.mem_or_eq_of_mem_set hr with hr2 | hr2
    · rcases List.mem_or_eq_of_mem_set hr2 with hr3 | hr3
      · exact h.2 r hr3
      · subst hr3
        exact h.getD_row hj
    · subst hr2
      exact h.getD_row hi

theorem mOf_swapRows {n : Nat} {m : BitMatrix} (hm : m.length = n) {i j : Nat}
    (hi : i < n) (hj : j < n) :
    mOf n (swapRows m i j)
      = permM n (fun r => if r.val = i then ⟨j, hj⟩ else if r.val = j then ⟨i, hi⟩ else r)
        * mOf n m := by
  rw [permM_mul]
  ext r c
  show (if Row.tBit (List.getD (swapRows m i j) r.val []) c.val then (1 : ZMod 2) else 0)
    = (if Row.tBit
        (List.getD m
          ((if r.val = i then (⟨j, hj⟩ : Fin n) else if r.val = j then ⟨i, hi⟩ else r)).val [])
        c.val then (1 : ZMod 2) else 0)
  rw [getD_swapRows (hm ▸ hi) (hm ▸ hj) r.val]
  by_cases hri : r.val = i
  · rw [if_pos hri, if_pos hri]
  · rw [if_neg hri, if_neg hri]
    by_cases hrj : r.val = j
    · rw [if_pos hrj, if_pos hrj]
    · rw [if_neg hrj, if_neg hrj]

/-- `mOf` of the row operation `m[i] = m[i].Add(m[t])`. -/
theorem mOf_setAdd {n w : Nat} {m : BitMatrix} (hW : WFMat n w m) (hsq : n = 8 * w)
    {i t : Nat} (hi : i < n) (ht : t < n) :
    mOf n (List.set m i (Row.Add (List.getD m i []) (List.getD m t [])))
      = addE n ⟨i, hi⟩ ⟨t, ht⟩ * mOf n m := by
  rw [addE_mul]
  ext r c
  show (if Row.tBit
      (List.getD (List.set m i (Row.Add (List.getD m i []) (List.getD m t []))) r.val [])
        c.val then (1 : ZMod 2) else 0)
    = mOf n m r c + (if r = ⟨i, hi⟩ then mOf n m ⟨t, ht⟩ c else 0)
  by_cases hri : r.val = i
  · have hrfin : r = (⟨i, hi⟩ : Fin n) := Fin.ext hri
    rw [if_pos hrfin]
    have hset : List.getD (List.set m i (Row.Add (List.getD m i []) (List.getD m t []))) r.val []
        = Row.Add (List.getD m i []) (List.getD m t []) := by
      rw [hri, List.getD_eq_getElem?_getD, List.getElem?_set_self (by rw [hW.1]; omega),
        Option.getD_some]
    rw [hset, tBit_RowAdd ((hW.getD_row hi).1.trans (hW.getD_row ht).1.symm)]
    show _ = (if Row.tBit (List.getD m r.val []) c.val then (1 : ZMod 2) else 0)
      + (if Row.tBit (List.getD m t []) c.val then (1 : ZMod 2) else 0)
    rw [hri]
    cases Row.tBit (List.getD m i []) c.val <;> cases Row.tBit (List.getD m t []) c.val <;>
      decide
  · have hrfin : r ≠ (⟨i, hi⟩ : Fin n) := fun h => hri (congrArg Fin.val h)
    rw [if_neg hrfin, add_zero]
    have hset : List.getD (List.set m i (Row.Add (List.getD m i []) (List.getD m t []))) r.val []
        = List.getD m r.val [] := by
      rw [List.getD_eq_getElem?_getD, List.getElem?_set_ne (fun h => hri h.symm),
        ← List.getD_eq_getElem?_getD]
    rw [hset]
    rfl

/-! ### The Gauss-Jordan loop invariant -/

/-- After the first `r` columns have been processed, those columns of the
working copy hold the identity pattern. -/
def SolvedCols (r n : Nat) (f : BitMatrix) : Prop :=
  ∀ j, j < r → ∀ i, i < n → Row.tBit (List.getD f i []) j = decide (i = j)

theorem WFMat.set {n w : Nat} {m : BitMatrix} (h : WFMat n w m) {x : Row}
    (hx : WFRow w x) (i : Nat) : WFMat n w (List.set m i x) := by
  constructor
  · rw [List.length_set, h.1]
  · intro r hr
    rcases List.mem_or_eq_of_mem_set hr with h2 | h2
    · exact h.2 r h2
    · subst h2; exact hx

theorem mOf_of_solved {n : Nat} {f : BitMatrix} (hs : SolvedCols n n f) :
    mOf n f = 1 := by
  ext i j
  show (if Row.tBit (List.getD f i.val []) j.val then (1 : ZMod 2) else 0) = _
  rw [hs j.val j.isLt i.val i.isLt, Matrix.one_apply]
  by_cases hij : i = j
  · simp [hij]
  · have : ¬ (i.val = j.val) := fun h => hij (Fin.ext h)
    simp [hij, this]

theorem scanPivot_spec (f : BitMatrix) (row : Nat) :
    ∀ fuel start, scanPivot f row fuel start = 255 ∨
      (start ≤ scanPivot f row fuel start ∧ scanPivot f row fuel start < start + fuel ∧
        Row.tBit (List.getD f (scanPivot f row fuel start) []) row = true) := by
  intro fuel
  induction fuel with
  | zero => intro start; left; rfl
  | succ k ih =>
    intro start
    unfold scanPivot
    by_cases hb : Row.GetBit (List.getD f start []) row = 1
    · rw [if_pos hb]
      right
      exact ⟨le_refl _, by omega, (GetBit_eq_one_iff _ _).1 hb⟩
    · rw [if_neg hb]
      rcases ih (start + 1) with h | ⟨h1, h2, h3⟩
      · left; exact h
      · right; exact ⟨by omega, by omega, h3⟩

theorem swap_step {n w row cand : Nat} {f : BitMatrix} (hW : WFMat n w f)
    (hrow : row < n) (hcand : row ≤ cand) (hcandlt : cand < n)
    (hbit : Row.tBit (List.getD f cand []) row = true)
    (hsolved : SolvedCols row n f) :
    SolvedCols row n (swapRows f row cand) ∧
    Row.tBit (List.getD (swapRows f row cand) row []) row = true := by
  have hlen : f.length = n := hW.1
  constructor
  · intro j hj i hi
    rw [getD_swapRows (by omega) (by omega) i]
    by_cases hir : i = row
    · rw [if_pos hir, hsolved j hj cand hcandlt]
      have h1 : ¬(cand = j) := by omega
      have h2 : ¬(i = j) := by omega
      simp [h1, h2]
    · rw [if_neg hir]
      by_cases hic : i = cand
      · rw [if_pos hic, hsolved j hj row hrow]
        have h1 : ¬(row = j) := by omega
        have h2 : ¬(i = j) := by omega
        simp [h1, h2]
      · rw [if_neg hic]
        exact hsolved j hj i hi
  · rw [getD_swapRows (by omega) (by omega) row, if_pos rfl]
    exact hbit

/-- Invariants of the cancellation fold of `Invert` after processing row
indices `0..k-1`. -/
theorem elim_fold_spec {n w row : Nat} {f1 out1 : BitMatrix}
    (hsq : n = 8 * w) (hrow : row < n)
    (hWf : WFMat n w f1) (hWout : WFMat n w out1)
    (hpiv : Row.tBit (List.getD f1 row []) row = true) :
    ∀ k, k ≤ n →
    WFMat n w (List.foldl (fun st i => elimStep row i st) (f1, out1) (List.range k)).1 ∧
    WFMat n w (List.foldl (fun st i => elimStep row i st) (f1, out1) (List.range k)).2 ∧
    (∃ E : Matrix (Fin n) (Fin n) (ZMod 2),
      mOf n (List.foldl (fun st i => elimStep row i st) (f1, out1) (List.range k)).1
        = E * mOf n f1 ∧
      mOf n (List.foldl (fun st i => elimStep row i st) (f1, out1) (List.range k)).2
        = E * mOf n out1) ∧
    (∀ i, i < n → (k ≤ i ∨ i = row) →
      List.getD (List.foldl (fun st i => elimStep row i st) (f1, out1) (List.range k)).1 i []
        = List.getD f1 i []) ∧
    (∀ i, i < k → i ≠ row →
      Row.tBit
        (List.getD (List.foldl (fun st i => elimStep row i st) (f1, out1) (List.range k)).1 i [])
        row = false ∧
      (List.getD (List.foldl (fun st i => elimStep row i st) (f1, out1) (List.range k)).1 i []
          = List.getD f1 i [] ∨
       List.getD (List.foldl (fun st i => elimStep row i st) (f1, out1) (List.range k)).1 i []
          = Row.Add (List.getD f1 i []) (List.getD f1 row []))) := by
  intro k
  induction k with
  | zero =>
    intro _
    refine ⟨hWf, hWout, ⟨1, by simp, by simp⟩, ?_, ?_⟩
    · intro i _ _; rfl
    · intro i hi; omega
  | succ k ih =>
    intro hk
    obtain ⟨ihWf, ihWout, ⟨E, hEf, hEout⟩, ihfix, ihdone⟩ := ih (by omega)
    rw [List.range_succ, List.foldl_append, List.foldl_cons, List.foldl_nil]
    set st := List.foldl (fun st i => elimStep row i st) (f1, out1) (List.range k) with hst
    have hklt : k < n := by omega
    by_cases hkr : k = row
    · -- skipped index
      have hstep : elimStep row k st = st := by unfold elimStep; rw [if_pos hkr]
      rw [hstep]
      refine ⟨ihWf, ihWout, ⟨E, hEf, hEout⟩, ?_, ?_⟩
      · intro i hi hcond
        exact ihfix i hi (by omega)
      · intro i hi hir
        exact ihdone i (by omega) hir
    · have hfixk : List.getD st.1 k [] = List.getD f1 k [] :=
        ihfix k hklt (Or.inl (le_refl k))
      have hfixrow : List.getD st.1 row [] = List.getD f1 row [] :=
        ihfix row hrow (Or.inr rfl)
      by_cases hb : Row.GetBit (List.getD st.1 k []) row = 1
      · -- the row gets cancelled
        have hstep : elimStep row k st =
            (List.set st.1 k (Row.Add (List.getD st.1 k []) (List.getD st.1 row [])),
             List.set st.2 k (Row.Add (List.getD st.2 k []) (List.getD st.2 row []))) := by
          unfold elimStep
          rw [if_neg hkr, if_pos hb]
        rw [hstep]
        have hWf1k : WFRow w (List.getD st.1 k []) := ihWf.getD_row hklt
        have hWf1row : WFRow w (List.getD st.1 row []) := ihWf.getD_row hrow
        have hWout1k : WFRow w (List.getD st.2 k []) := ihWout.getD_row hklt
        have hWout1row : WFRow w (List.getD st.2 row []) := ihWout.getD_row hrow
        refine ⟨ihWf.set (hWf1k.RowAdd hWf1row) k, ihWout.set (hWout1k.RowAdd hWout1row) k,
          ⟨addE n ⟨k, hklt⟩ ⟨row, hrow⟩ * E, ?_, ?_⟩, ?_, ?_⟩
        · rw [mOf_setAdd ihWf hsq hklt hrow, hEf, Matrix.mul_assoc]
        · rw [mOf_setAdd ihWout hsq hklt hrow, hEout, Matrix.mul_assoc]
        · intro i hi hcond
          have hik : i ≠ k := by omega
          show List.getD (List.set st.1 k _) i [] = _
          rw [getD_set]
          rw [if_neg (by tauto)]
          exact ihfix i hi (by omega)
        · intro i hi hir
          by_cases hik : i = k
          · subst hik
            have hnew : List.getD
                (List.set st.1 i (Row.Add (List.getD st.1 i []) (List.getD st.1 row []))) i []
                = Row.Add (List.getD f1 i []) (List.getD f1 row []) := by
              rw [getD_set, if_pos ⟨rfl, by rw [ihWf.1]; omega⟩, hfixk, hfixrow]
            refine ⟨?_, Or.inr hnew⟩
            rw [hnew, tBit_RowAdd ((hWf.getD_row hklt).1.trans (hWf.getD_row hrow).1.symm)]
            have h1 : Row.tBit (List.getD f1 i []) row = true := by
              rw [← hfixk]
              exact (GetBit_eq_one_iff _ _).1 hb
            rw [h1, hpiv]
            rfl
          · have hsame : List.getD (List.set st.1 k
                (Row.Add (List.getD st.1 k []) (List.getD st.1 row []))) i []
                = List.getD st.1 i [] := by
              rw [getD_set, if_neg (by tauto)]
            show Row.tBit (List.getD (List.set st.1 k _) i []) row = false ∧ _
            rw [hsame]
            exact ihdone i (by omega) hir
      · -- nothing to cancel
        have hstep : elimStep row k st = st := by
          unfold elimStep
          rw [if_neg hkr, if_neg hb]
        rw [hstep]
        refine ⟨ihWf, ihWout, ⟨E, hEf, hEout⟩, ?_, ?_⟩
        · intro i hi hcond
          exact ihfix i hi (by omega)
        · intro i hi hir
          by_cases hik : i = k
          · subst hik
            have hb0 : Row.tBit (List.getD st.1 i []) row = false := by
              rw [GetBit_eq_one_iff] at hb
              cases h : Row.tBit (List.getD st.1 i []) row
              · rfl
              · exact absurd h hb
            exact ⟨hb0, Or.inl hfixk⟩
          · exact ihdone i (by omega) hir

/-- The cancellation loop preserves well-formedness and the simultaneous
left-multiplication relation, and completes column `row`. -/
theorem elimLoop_spec {n w row : Nat} {f1 out1 : BitMatrix}
    (hsq : n = 8 * w) (hrow : row < n)
    (hWf : WFMat n w f1) (hWout : WFMat n w out1)
    (hpiv : Row.tBit (List.getD f1 row []) row = true)
    (hsolved : SolvedCols row n f1) :
    WFMat n w (elimLoop row n (f1, out1)).1 ∧
    WFMat n w (elimLoop row n (f1, out1)).2 ∧
    (∃ E : Matrix (Fin n) (Fin n) (ZMod 2),
      mOf n (elimLoop row n (f1, out1)).1 = E * mOf n f1 ∧
      mOf n (elimLoop row n (f1, out1)).2 = E * mOf n out1) ∧
    SolvedCols (row + 1) n (elimLoop row n (f1, out1)).1 := by
  obtain ⟨h1, h2, h3, hfix, hdone⟩ := elim_fold_spec hsq hrow hWf hWout hpiv n (le_refl n)
  refine ⟨h1, h2, h3, ?_⟩
  intro j hj i hi
  by_cases hir : i = row
  · show Row.tBit (List.getD (elimLoop row n (f1, out1)).1 i []) j = decide (i = j)
    rw [show (elimLoop row n (f1, out1)).1
        = (List.foldl (fun st i => elimStep row i st) (f1, out1) (List.range n)).1 from rfl]
    rw [hfix i hi (Or.inr hir)]
    by_cases hjr : j = row
    · rw [hir, hjr, hpiv]
      have : row = row := rfl
      simp
    · have hjlt : j < row := by omega
      exact hsolved j hjlt i hi
  · obtain ⟨hclr, hcase⟩ := hdone i hi hir
    show Row.tBit (List.getD (elimLoop row n (f1, out1)).1 i []) j = decide (i = j)
    rw [show (elimLoop row n (f1, out1)).1
        = (List.foldl (fun st i => elimStep row i st) (f1, out1) (List.range n)).1 from rfl]
    by_cases hjr : j = row
    · subst hjr
      rw [hclr]
      simp [hir]
    · have hjlt : j < row := by omega
      rcases hcase with hsame | hadd
      · rw [hsame, hsolved j hjlt i hi]
      · rw [hadd, tBit_RowAdd ((hWf.getD_row hi).1.trans (hWf.getD_row hrow).1.symm),
          hsolved j hjlt i hi, hsolved j hjlt row hrow]
        have hnrj : ¬(row = j) := by omega
        simp [hnrj]

/-- The Gauss-Jordan column loop: if it reports success it has turned the
augmentation into a left inverse of the original matrix. -/
theorem invertLoop_inv {n w : Nat} (hsq : n = 8 * w) {M : BitMatrix} :
    ∀ fuel row f out, row + fuel = n →
      WFMat n w f → WFMat n w out →
      SolvedCols row n f →
      mOf n f = mOf n out * mOf n M →
      (invertLoop n fuel row f out).2 = true →
      mOf n (invertLoop n fuel row f out).1 * mOf n M = 1 ∧
      WFMat n w (invertLoop n fuel row f out).1 := by
  intro fuel
  induction fuel with
  | zero =>
    intro row f out hrow hWf hWout hsolved hprod _
    have hrn : row = n := by omega
    have hs' : SolvedCols n n f := hrn ▸ hsolved
    have hone : mOf n f = 1 := mOf_of_solved hs'
    refine ⟨?_, hWout⟩
    show mOf n out * mOf n M = 1
    rw [← hprod, hone]
  | succ k ih =>
    intro row f out hrow hWf hWout hsolved hprod hres
    rw [invertLoop_succ] at hres ⊢
    by_cases hcand : scanPivot f row (n - row) row = 255
    · rw [if_pos hcand] at hres
      exact absurd hres (by simp)
    · rw [if_neg hcand] at hres ⊢
      rcases scanPivot_spec f row (n - row) row with h255 | ⟨hge, hlt, hbit⟩
      · exact absurd h255 hcand
      · have hrowlt : row < n := by omega
        have hcandlt : scanPivot f row (n - row) row < n := by omega
        have hWf1 : WFMat n w (swapRows f row (scanPivot f row (n - row) row)) :=
          hWf.swapRows hrowlt hcandlt
        have hWout1 : WFMat n w (swapRows out row (scanPivot f row (n - row) row)) :=
          hWout.swapRows hrowlt hcandlt
        obtain ⟨hsolved1, hpiv1⟩ := swap_step hWf hrowlt hge hcandlt hbit hsolved
        have hprod1 : mOf n (swapRows f row (scanPivot f row (n - row) row))
            = mOf n (swapRows out row (scanPivot f row (n - row) row)) * mOf n M := by
          rw [mOf_swapRows hWf.1 hrowlt hcandlt, mOf_swapRows hWout.1 hrowlt hcandlt,
            hprod, ← Matrix.mul_assoc]
        obtain ⟨hW2f, hW2out, ⟨E, hEf, hEout⟩, hsolved2⟩ :=
          elimLoop_spec hsq hrowlt hWf1 hWout1 hpiv1 hsolved1
        have hprod2 :
            mOf n (elimLoop row n (swapRows f row (scanPivot f row (n - row) row),
              swapRows out row (scanPivot f row (n - row) row))).1
            = mOf n (elimLoop row n (swapRows f row (scanPivot f row (n - row) row),
              swapRows out row (scanPivot f row (n - row) row))).2 * mOf n M := by
          rw [hEf, hEout, hprod1, Matrix.mul_assoc]
        exact ih (row + 1) _ _ (by omega) hW2f hW2out hsolved2 hprod2 hres

/-- A successful `Invert` returns a well-formed left inverse. -/
theorem invert_success_left_inverse {n w : Nat} (hsq : n = 8 * w) {M N : BitMatrix}
    (hM : WFMat n w M) (hinv : BitMatrix.Invert M = (N, true)) :
    mOf n N * mOf n M = 1 ∧ WFMat n w N := by
  unfold BitMatrix.Invert at hinv
  rw [hM.1] at hinv
  have hWI : WFMat n w (GenerateIdentity n) := by
    have h := WFMat_GenerateIdentity n
    have hw8 : n / 8 = w := by omega
    rw [hw8] at h
    exact h
  have h8 : n % 8 = 0 := by omega
  have hmain := invertLoop_inv hsq (M := M) n 0 M (GenerateIdentity n) (by omega) hM hWI
    (by intro j hj; omega)
    (by rw [mOf_GenerateIdentity h8, one_mul])
    (by rw [hinv])
  rw [hinv] at hmain
  exact hmain

/-- C1: whenever `Invert()` succeeds on a (well-formed) square matrix, the
returned matrix is a two-sided inverse: applying `M` then `N` (or `N` then
`M`) to any row of matching width is the identity. -/
theorem C1_Invert_two_sided_inverse {n w : Nat} (M N : BitMatrix) (hsq : n = 8 * w)
    (hM : WFMat n w M) (hinv : BitMatrix.Invert M = (N, true))
    (v : Row) (hv : WFRow w v) :
    BitMatrix.Mul M (BitMatrix.Mul N v) = v ∧ BitMatrix.Mul N (BitMatrix.Mul M v) = v := by
  obtain ⟨hNM, hWN⟩ := invert_success_left_inverse hsq hM hinv
  have hMN : mOf n M * mOf n N = 1 := Matrix.mul_eq_one_comm.1 hNM
  have hlenM : M.length = 8 * w := by rw [hM.1]; omega
  have hlenN : N.length = 8 * w := by rw [hWN.1]; omega
  constructor
  · have h1 : vOf n (BitMatrix.Mul N v) = (mOf n N).mulVec (vOf n v) := vOf_Mul hsq hWN hv
    have hWNv : WFRow w (BitMatrix.Mul N v) := WFRow_Mul hlenN
    have h2 : vOf n (BitMatrix.Mul M (BitMatrix.Mul N v)) = vOf n v := by
      rw [vOf_Mul hsq hM hWNv, h1, Matrix.mulVec_mulVec, hMN, Matrix.one_mulVec]
    exact vOf_inj hsq (WFRow_Mul hlenM) hv h2
  · have h1 : vOf n (BitMatrix.Mul M v) = (mOf n M).mulVec (vOf n v) := vOf_Mul hsq hM hv
    have hWMv : WFRow w (BitMatrix.Mul M v) := WFRow_Mul hlenM
    have h2 : vOf n (BitMatrix.Mul N (BitMatrix.Mul M v)) = vOf n v := by
      rw [vOf_Mul hsq hWN hWMv, h1, Matrix.mulVec_mulVec, hNM, Matrix.one_mulVec]
    exact vOf_inj hsq (WFRow_Mul hlenN) hv h2

/-- The concrete 8×8 matrix (a transposition of the identity) used to
witness C1. -/
def c1M : BitMatrix := [[2], [1], [4], [8], [16], [32], [64], [128]]

/-- Witness for C1 at `c1M` (its own inverse) and the row `[201]`. -/
theorem C1_Invert_two_sided_inverse_witness :
    BitMatrix.Mul c1M (BitMatrix.Mul c1M [201]) = [201] :=
  (C1_Invert_two_sided_inverse (n := 8) (w := 1) c1M c1M rfl (by decide) (by decide)
    [201] (by decide)).1

/-! ### C7: Invert never mutates the caller's matrix.

The pure embedding cannot distinguish mutation, so `Invert` is re-run on a
heap model faithful to Go's memory behaviour: a store of byte buffers, a
`[]Row` value being a list of buffer addresses.  `copy(f, e)` copies the
address list only (rows are shared), row swaps permute the local address
list, `Row.Add` allocates a fresh buffer, and the only in-place writes are
the `SetBit` calls of `GenerateIdentity`, which hit freshly allocated
buffers. -/

/-- A heap of row buffers, addressed by position. -/
abbrev Store := List Row

def readRowH (s : Store) (a : Nat) : Row := List.getD s a []

def allocRow (s : Store) (r : Row) : Store × Nat := (s ++ [r], s.length)

def writeRow (s : Store) (a : Nat) (r : Row) : Store := List.set s a r

/-- `GenerateEmpty` in the heap model: allocate `n` fresh zero rows. -/
def GenerateEmptyH (n : Nat) (s : Store) : Store × List Nat :=
  List.foldl
    (fun acc _ =>
      ((allocRow acc.1 (List.replicate (n / 8) 0)).1,
        acc.2 ++ [(allocRow acc.1 (List.replicate (n / 8) 0)).2]))
    (s, []) (List.range n)

/-- `GenerateIdentity` in the heap model: `out[i].SetBit(i, true)` is an
in-place write through the freshly allocated row pointer. -/
def GenerateIdentityH (n : Nat) (s : Store) : Store × List Nat :=
  let p := GenerateEmptyH n s
  (List.foldl
    (fun s2 i =>
      writeRow s2 (List.getD p.2 i 0)
        (Row.SetBit (readRowH s2 (List.getD p.2 i 0)) i true))
    p.1 (List.range n), p.2)

/-- The pivot scan, reading rows through the store. -/
def scanPivotH (s : Store) (f : List Nat) (row : Nat) : Nat → Nat → Nat
  | 0, _ => 255
  | fuel + 1, i =>
    if Row.GetBit (readRowH s (List.getD f i 0)) row = 1 then i
    else scanPivotH s f row fuel (i + 1)

/-- One cancellation step: `f[i] = f[i].Add(f[row])` allocates a fresh
buffer and rebinds the local pointer; likewise for `out`. -/
def elimStepH (row i : Nat) (st : Store × List Nat × List Nat) :
    Store × List Nat × List Nat :=
  if i = row then st
  else if Row.GetBit (readRowH st.1 (List.getD st.2.1 i 0)) row = 1 then
    let a1 := allocRow st.1
      (Row.Add (readRowH st.1 (List.getD st.2.1 i 0)) (readRowH st.1 (List.getD st.2.1 row 0)))
    let a2 := allocRow a1.1
      (Row.Add (readRowH a1.1 (List.getD st.2.2 i 0)) (readRowH a1.1 (List.getD st.2.2 row 0)))
    (a2.1, List.set st.2.1 i a1.2, List.set st.2.2 i a2.2)
  else st

def elimLoopH (row a : Nat) (st : Store × List Nat × List Nat) :
    Store × List Nat × List Nat :=
  List.foldl (fun st i => elimStepH row i st) st (List.range a)

def swapRefs (m : List Nat) (i j : Nat) : List Nat :=
  List.set (List.set m i (List.getD m j 0)) j (List.getD m i 0)

def invertLoopH (a : Nat) :
    Nat → Nat → Store → List Nat → List Nat → Store × List Nat × Bool
  | 0, _, s, _, out => (s, out, true)
  | fuel + 1, row, s, f, out =>
    let candId := scanPivotH s f row (a - row) row
    if candId = 255 then (s, out, false)
    else
      let f1 := swapRefs f row candId
      let out1 := swapRefs out row candId
      let st := elimLoopH row a (s, f1, out1)
      invertLoopH a fuel (row + 1) st.1 st.2.1 st.2.2

/-- `Matrix.Invert` in the heap model (after the squareness check):
`out := GenerateIdentity(a)`, `f := copy(e)` shares `e`'s row pointers. -/
def InvertH (s : Store) (e : List Nat) : Store × List Nat × Bool :=
  let a := e.length
  let p := GenerateIdentityH a s
  invertLoopH a a 0 p.1 e p.2

/-- `s2` extends `s`: all pre-existing buffers are intact. -/
def Ext (s s2 : Store) : Prop :=
  s.length ≤ s2.length ∧ ∀ a, a < s.length → List.getD s2 a [] = List.getD s a []

theorem Ext.refl (s : Store) : Ext s s := ⟨le_refl _, fun _ _ => Eq.refl _⟩

theorem Ext.trans {s1 s2 s3 : Store} (h1 : Ext s1 s2) (h2 : Ext s2 s3) : Ext s1 s3 := by
  obtain ⟨l1, g1⟩ := h1
  obtain ⟨l2, g2⟩ := h2
  refine ⟨le_trans l1 l2, ?_⟩
  intro a ha
  rw [g2 a (by omega), g1 a ha]

theorem Ext.alloc {s0 s : Store} (h : Ext s0 s) (r : Row) : Ext s0 (s ++ [r]) := by
  obtain ⟨hl, hg⟩ := h
  refine ⟨by simp; omega, ?_⟩
  intro a ha
  rw [List.getD_eq_getElem?_getD, List.getElem?_append_left (by omega),
    ← List.getD_eq_getElem?_getD]
  exact hg a ha

theorem Ext.write_high {s0 s : Store} (h : Ext s0 s) {a : Nat} (ha : s0.length ≤ a)
    (r : Row) : Ext s0 (List.set s a r) := by
  obtain ⟨hl, hg⟩ := h
  refine ⟨by simp; omega, ?_⟩
  intro b hb
  rw [List.getD_eq_getElem?_getD, List.getElem?_set_ne (by omega),
    ← List.getD_eq_getElem?_getD]
  exact hg b hb

/-- `GenerateEmptyH` only appends, returns `n` pointers, all fresh. -/
theorem GenerateEmptyH_spec (n : Nat) (s : Store) :
    Ext s (GenerateEmptyH n s).1 ∧
    (∀ a ∈ (GenerateEmptyH n s).2, s.length ≤ a) ∧
    (GenerateEmptyH n s).2.length = n := by
  unfold GenerateEmptyH
  suffices h : ∀ k, Ext s (List.foldl
      (fun acc _ =>
        ((allocRow acc.1 (List.replicate (n / 8) 0)).1,
          acc.2 ++ [(allocRow acc.1 (List.replicate (n / 8) 0)).2]))
      (s, []) (List.range k)).1 ∧
      (∀ a ∈ (List.foldl
        (fun acc _ =>
          ((allocRow acc.1 (List.replicate (n / 8) 0)).1,
            acc.2 ++ [(allocRow acc.1 (List.replicate (n / 8) 0)).2]))
        (s, []) (List.range k)).2, s.length ≤ a) ∧
      (List.foldl
        (fun acc _ =>
          ((allocRow acc.1 (List.replicate (n / 8) 0)).1,
            acc.2 ++ [(allocRow acc.1 (List.replicate (n / 8) 0)).2]))
        (s, []) (List.range k)).2.length = k from h n
  intro k
  induction k with
  | zero => exact ⟨Ext.refl s, by simp, rfl⟩
  | succ k ih =>
    rw [List.range_succ, List.foldl_append, List.foldl_cons, List.foldl_nil]
    obtain ⟨ih1, ih2, ih3⟩ := ih
    refine ⟨ih1.alloc _, ?_, by simp [ih3]⟩
    intro a ha
    rcases List.mem_append.1 ha with ha2 | ha2
    · exact ih2 a ha2
    · have : a = _ := List.mem_singleton.1 ha2
      subst this
      exact ih1.1

/-- `GenerateIdentityH` only touches fresh buffers. -/
theorem GenerateIdentityH_ext (n : Nat) (s : Store) :
    Ext s (GenerateIdentityH n s).1 := by
  unfold GenerateIdentityH
  obtain ⟨hext, hfresh, hlen⟩ := GenerateEmptyH_spec n s
  suffices h : ∀ l : List Nat, (∀ i ∈ l, i < n) → Ext s (List.foldl
      (fun s2 i =>
        writeRow s2 (List.getD (GenerateEmptyH n s).2 i 0)
          (Row.SetBit (readRowH s2 (List.getD (GenerateEmptyH n s).2 i 0)) i true))
      (GenerateEmptyH n s).1 l) from
    h (List.range n) (fun i hi => List.mem_range.1 hi)
  intro l
  induction l using List.reverseRecOn with
  | nil => intro _; exact hext
  | append_singleton l i ih =>
    intro hmem
    rw [List.foldl_append, List.foldl_cons, List.foldl_nil]
    apply Ext.write_high (ih (fun j hj => hmem j (by simp [hj])))
    have hi : i < (GenerateEmptyH n s).2.length := by
      rw [hlen]
      exact hmem i (by simp)
    apply hfresh
    rw [List.getD_eq_getElem?_getD, List.getElem?_eq_getElem hi]
    exact List.mem_iff_getElem.2 ⟨i, hi, rfl⟩

theorem elimStepH_ext {s0 : Store} {row i : Nat} {st : Store × List Nat × List Nat}
    (h : Ext s0 st.1) : Ext s0 (elimStepH row i st).1 := by
  unfold elimStepH
  split
  · exact h
  · split
    · exact (h.alloc _).alloc _
    · exact h

theorem elimLoopH_ext {s0 : Store} {row a : Nat} {st : Store × List Nat × List Nat}
    (h : Ext s0 st.1) : Ext s0 (elimLoopH row a st).1 := by
  unfold elimLoopH
  induction a using Nat.rec generalizing st with
  | zero => exact h
  | succ a ih =>
    rw [List.range_succ, List.foldl_append, List.foldl_cons, List.foldl_nil]
    exact @elimStepH_ext s0 row a
      (List.foldl (fun st i => elimStepH row i st) st (List.range a)) (ih h)

theorem invertLoopH_succ (a fuel row : Nat) (s : Store) (f out : List Nat) :
    invertLoopH a (fuel + 1) row s f out =
      if scanPivotH s f row (a - row) row = 255 then (s, out, false)
      else
        invertLoopH a fuel (row + 1)
          (elimLoopH row a (s, swapRefs f row (scanPivotH s f row (a - row) row),
            swapRefs out row (scanPivotH s f row (a - row) row))).1
          (elimLoopH row a (s, swapRefs f row (scanPivotH s f row (a - row) row),
            swapRefs out row (scanPivotH s f row (a - row) row))).2.1
          (elimLoopH row a (s, swapRefs f row (scanPivotH s f row (a - row) row),
            swapRefs out row (scanPivotH s f row (a - row) row))).2.2 := rfl

theorem invertLoopH_ext {a : Nat} :
    ∀ fuel row (s0 s : Store) (f out : List Nat), Ext s0 s →
      Ext s0 (invertLoopH a fuel row s f out).1 := by
  intro fuel
  induction fuel with
  | zero => intro row s0 s f out h; exact h
  | succ k ih =>
    intro row s0 s f out h
    rw [invertLoopH_succ]
    split
    · exact h
    · exact ih (row + 1) s0 _ _ _ (@elimLoopH_ext s0 row a (s, _, _) h)

/-- C7: `Invert` run on the heap model leaves every pre-existing buffer —
in particular every row of the caller's matrix — bit-for-bit unchanged,
whether it reports success or failure. -/
theorem C7_Invert_no_mutation (s : Store) (e : List Nat) (ok : Bool)
    (_hok : (InvertH s e).2.2 = ok) :
    ∀ a ∈ e, a < s.length → readRowH (InvertH s e).1 a = readRowH s a := by
  intro a _ ha
  have hext : Ext s (InvertH s e).1 := by
    unfold InvertH
    exact invertLoopH_ext e.length 0 s _ e _ (GenerateIdentityH_ext e.length s)
  exact hext.2 a ha

/-- Witness for C7: inverting the 8×8 identity stored at addresses 0..7
leaves those buffers unchanged (here at address 3). -/
theorem C7_Invert_no_mutation_witness :
    readRowH (InvertH [[1], [2], [4], [8], [16], [32], [64], [128]] [0, 1, 2, 3, 4, 5, 6, 7]).1 3
      = readRowH [[1], [2], [4], [8], [16], [32], [64], [128]] 3 := by
  apply C7_Invert_no_mutation [[1], [2], [4], [8], [16], [32], [64], [128]]
    [0, 1, 2, 3, 4, 5, 6, 7]
    (InvertH [[1], [2], [4], [8], [16], [32], [64], [128]] [0, 1, 2, 3, 4, 5, 6, 7]).2.2 rfl 3
    (by decide) (by decide)

/-! ### The incremental basis builder (C4, C9).

Modelled from the spec: the `IncrementalMatrix` implementation itself is
not under src/ (only its tests are), so the builder below follows §4.3 of
the spec: `Add` reduces the candidate against the reduced-echelon
`simplest` rows while mirroring the same combination on an
inverse-tracking coefficient row, rejects the candidate if the reduction
is zero leaving the state untouched, and otherwise back-substitutes the
new pivot row and appends to all three structures.  Following §9, the
inverse bookkeeping keeps, for each accepted row, the coefficient vector
expressing its `simplest` row as a combination of the raw rows. -/

structure IncrementalMatrix where
  n : Nat
  raw : List Row
  simplest : List Row
  inverse : List Row

/-- Modelled from the spec: `New(n)` constructs an empty builder. -/
def NewIncrementalMatrix (n : Nat) : IncrementalMatrix := ⟨n, [], [], []⟩

/-- First set bit at or after `i` within `fuel` positions (returns
`i + fuel` when none). -/
def firstSetAux (e : Row) : Nat → Nat → Nat
  | 0, i => i
  | fuel + 1, i => if Row.tBit e i then i else firstSetAux e fuel (i + 1)

/-- The pivot (leading set bit) of a row; `Row.Size e` when the row is
zero. -/
def pivot (e : Row) : Nat := firstSetAux e (Row.Size e) 0

/-- One step of the spec's step-1 reduction: clear the `j`-th pivot from
the candidate if set, mirroring the combination on the tracking row. -/
def reduceStep (st : IncrementalMatrix) (cur : Row × Row) (j : Nat) : Row × Row :=
  if Row.GetBit cur.1 (pivot (List.getD st.simplest j [])) = 1 then
    (Row.Add cur.1 (List.getD st.simplest j []),
     Row.Add cur.2 (List.getD st.inverse j []))
  else cur

/-- The spec's step-1 reduction of a candidate against all accepted rows. -/
def reduce (st : IncrementalMatrix) (row aug : Row) : Row × Row :=
  List.foldl (reduceStep st) (row, aug) (List.range st.raw.length)

/-- The fresh tracking row for a candidate: the unit coefficient vector
selecting the candidate itself (bit `r`). -/
def addAug0 (st : IncrementalMatrix) : Row :=
  Row.SetBit (List.replicate (st.n / 8) 0) st.raw.length true

/-- The candidate after the spec's step-1 reduction. -/
def addRed (st : IncrementalMatrix) (row : Row) : Row :=
  (reduce st row (addAug0 st)).1

/-- The candidate's tracking row after the spec's step-1 reduction. -/
def addAug (st : IncrementalMatrix) (row : Row) : Row :=
  (reduce st row (addAug0 st)).2

/-- Step 3 of the spec's `Add` on the `simplest` rows: xor the new pivot
row into every stored row that still has bit `p` set. -/
def backSubS (st : IncrementalMatrix) (p : Nat) (red : Row) : List Row :=
  (List.range st.raw.length).map (fun j =>
    if Row.GetBit (List.getD st.simplest j []) p = 1
    then Row.Add (List.getD st.simplest j []) red else List.getD st.simplest j [])

/-- Step 3 of the spec's `Add` mirrored on the inverse tracking. -/
def backSubI (st : IncrementalMatrix) (p : Nat) (aug : Row) : List Row :=
  (List.range st.raw.length).map (fun j =>
    if Row.GetBit (List.getD st.simplest j []) p = 1
    then Row.Add (List.getD st.inverse j []) aug else List.getD st.inverse j [])

/-- Modelled from the spec (§4.3 `Add`): reduce, reject zero, otherwise
back-substitute the new pivot row into the stored `simplest` rows
(mirrored on the inverse tracking) and append. -/
def IncrementalMatrix.Add (st : IncrementalMatrix) (row : Row) : IncrementalMatrix × Bool :=
  if addRed st row = List.replicate (st.n / 8) 0 then (st, false)
  else
    (⟨st.n, st.raw ++ [row],
      backSubS st (pivot (addRed st row)) (addRed st row) ++ [addRed st row],
      backSubI st (pivot (addRed st row)) (addAug st row) ++ [addAug st row]⟩, true)

/-- Modelled from the spec: current rank. -/
def IncrementalMatrix.Len (st : IncrementalMatrix) : Nat := st.raw.length

/-- Modelled from the spec: true iff the rank reached `n`. -/
def IncrementalMatrix.FullyDefined (st : IncrementalMatrix) : Bool :=
  st.raw.length == st.n

/-- Modelled from the spec: the raw rows in insertion order. -/
def IncrementalMatrix.Matrix (st : IncrementalMatrix) : BitMatrix := st.raw

/-- Modelled from the spec: assemble the inverse from the tracking rows,
placing the coefficient row of the `simplest` row with pivot `p` at row
`p`. -/
def IncrementalMatrix.Inverse (st : IncrementalMatrix) : BitMatrix :=
  List.foldl
    (fun out j => List.set out (pivot (List.getD st.simplest j []))
      (List.getD st.inverse j []))
    (GenerateEmpty st.n) (List.range st.raw.length)

/-- An XOR-combination of a list of rows, with coefficient bits `c`. -/
def rowCombo (c : Row) (rows : List Row) (w : Nat) : Row :=
  List.foldl
    (fun acc t => if Row.GetBit c t = 1 then Row.Add acc (List.getD rows t []) else acc)
    (List.replicate w 0) (List.range rows.length)

/-- Feed a list of candidate rows in order, conjoining the `Add` results. -/
def feedAll (st : IncrementalMatrix) (rows : List Row) : IncrementalMatrix × Bool :=
  List.foldl (fun acc row => ((acc.1.Add row).1, acc.2 && (acc.1.Add row).2)) (st, true) rows

/-! #### Combination vectors over ZMod 2 -/

/-- The ZMod 2 vector combination selected by the coefficient row `c` from
`rows`. -/
def comboV (w : Nat) (c : Row) (rows : List Row) : Fin (8 * w) → ZMod 2 :=
  ∑ t ∈ Finset.range rows.length,
    (if Row.tBit c t then vOf (8 * w) (List.getD rows t []) else 0)

theorem firstSetAux_spec (e : Row) :
    ∀ fuel start,
      (∀ j, start ≤ j → j < firstSetAux e fuel start → Row.tBit e j = false) ∧
      (firstSetAux e fuel start < start + fuel →
        Row.tBit e (firstSetAux e fuel start) = true) ∧
      start ≤ firstSetAux e fuel start ∧ firstSetAux e fuel start ≤ start + fuel := by
  intro fuel
  induction fuel with
  | zero =>
    intro start
    have h0 : firstSetAux e 0 start = start := rfl
    refine ⟨?_, ?_, by omega, by omega⟩
    · intro j h1 h2
      exact absurd h2 (by omega)
    · intro h
      exact absurd h (by omega)
  | succ k ih =>
    intro start
    unfold firstSetAux
    by_cases hb : Row.tBit e start
    · rw [if_pos hb]
      refine ⟨?_, fun _ => hb, le_refl _, by omega⟩
      intro j h1 h2
      omega
    · rw [if_neg hb]
      obtain ⟨i1, i2, i3, i4⟩ := ih (start + 1)
      refine ⟨?_, ?_, by omega, by omega⟩
      · intro j h1 h2
        by_cases hjs : j = start
        · subst hjs
          cases h : Row.tBit e j
          · rfl
          · exact absurd h hb
        · exact i1 j (by omega) h2
      · intro h
        exact i2 (by omega)

/-- A well-formed nonzero row has its pivot below its size, set, with all
earlier bits clear. -/
theorem pivot_spec {w : Nat} {e : Row} (hW : WFRow w e)
    (hne : e ≠ List.replicate w 0) :
    pivot e < 8 * w ∧ Row.tBit e (pivot e) = true ∧
    (∀ q, q < pivot e → Row.tBit e q = false) := by
  have hsz : Row.Size e = 8 * w := by unfold Row.Size; rw [hW.1]
  have hpd : pivot e = firstSetAux e (Row.Size e) 0 := rfl
  obtain ⟨h1, h2, h3, h4⟩ := firstSetAux_spec e (Row.Size e) 0
  have hex : ∃ i, i < 8 * w ∧ Row.tBit e i = true := by
    by_contra hc
    push_neg at hc
    apply hne
    apply row_ext hW (WFRow.replicate_zero w)
    intro i hi
    rw [tBit_replicate_zero]
    cases h : Row.tBit e i
    · rfl
    · exact absurd h (by simpa using (hc i hi))
  obtain ⟨i, hilt, hibit⟩ := hex
  have hple : pivot e ≤ i := by
    by_contra hgt
    push_neg at hgt
    have hz := h1 i (by omega) (by omega)
    rw [hz] at hibit
    exact absurd hibit (by simp)
  have hplt : pivot e < 8 * w := by omega
  refine ⟨hplt, ?_, ?_⟩
  · rw [hpd]
    exact h2 (by omega)
  · intro q hq
    exact h1 q (by omega) (by omega)

/-- If a row has bit `q` set, none below, and `q` is within its size, its
pivot is `q`. -/
theorem pivot_eq {w : Nat} {e : Row} (hW : WFRow w e) {q : Nat} (_hq : q < 8 * w)
    (hbit : Row.tBit e q = true) (hlow : ∀ q2, q2 < q → Row.tBit e q2 = false) :
    pivot e = q := by
  have hne : e ≠ List.replicate w 0 := by
    intro h
    rw [h, tBit_replicate_zero] at hbit
    exact absurd hbit (by simp)
  obtain ⟨h1, h2, h3⟩ := pivot_spec hW hne
  rcases Nat.lt_trichotomy (pivot e) q with h | h | h
  · exact absurd h2 (by rw [hlow _ h]; simp)
  · exact h
  · exact absurd hbit (by rw [h3 q h]; simp)

theorem zmod2_add_self : ∀ x : ZMod 2, x + x = 0 := by decide

theorem vOf_replicate_zero {n w : Nat} : vOf n (List.replicate w 0) = 0 := by
  funext i
  show (if Row.tBit (List.replicate w 0) i.val then (1 : ZMod 2) else 0) = 0
  rw [tBit_replicate_zero]
  simp

/-- `Row.Add` with the zero row is the identity on rows of width `w`. -/
theorem zero_RowAdd {w : Nat} {e : Row} (hl : e.length = w) :
    Row.Add (List.replicate w 0) e = e := by
  unfold Row.Add
  apply List.ext_getElem (by simp [hl])
  intro k h1 h2
  rw [List.getElem_zipWith, List.getElem_replicate]
  simp

theorem comboV_add {w : Nat} {a b : Row} (hl : a.length = b.length) (rows : List Row) :
    comboV w (Row.Add a b) rows = comboV w a rows + comboV w b rows := by
  unfold comboV
  rw [← Finset.sum_add_distrib]
  apply Finset.sum_congr rfl
  intro t _
  rw [tBit_RowAdd hl]
  cases ha : Row.tBit a t <;> cases hb : Row.tBit b t <;> simp
  funext i
  exact (zmod2_add_self _).symm

theorem comboV_append {w : Nat} (c : Row) (rows : List Row) (x : Row) :
    comboV w c (rows ++ [x])
      = comboV w c rows + (if Row.tBit c rows.length then vOf (8 * w) x else 0) := by
  unfold comboV
  rw [List.length_append, List.length_singleton, Finset.sum_range_succ]
  apply congrArg₂
  · apply Finset.sum_congr rfl
    intro t ht
    have hlt : t < rows.length := Finset.mem_range.1 ht
    rw [List.getD_eq_getElem?_getD, List.getElem?_append_left hlt,
      ← List.getD_eq_getElem?_getD]
  · have : List.getD (rows ++ [x]) rows.length [] = x := by
      rw [List.getD_eq_getElem?_getD, List.getElem?_append_right (le_refl _)]
      simp
    rw [this]

theorem WFRow_getD {w : Nat} {rows : List Row} (hW : ∀ r ∈ rows, WFRow w r) {k : Nat}
    (hk : k < rows.length) : WFRow w (List.getD rows k []) := by
  have hmem : List.getD rows k [] ∈ rows := by
    rw [List.getD_eq_getElem?_getD, List.getElem?_eq_getElem hk]
    exact List.mem_iff_getElem.2 ⟨k, hk, rfl⟩
  exact hW _ hmem

theorem rowCombo_fold_spec {w : Nat} (c : Row) (rows : List Row)
    (hW : ∀ r ∈ rows, WFRow w r) :
    ∀ k, k ≤ rows.length →
      WFRow w (List.foldl
        (fun acc t => if Row.GetBit c t = 1 then Row.Add acc (List.getD rows t []) else acc)
        (List.replicate w 0) (List.range k)) ∧
      vOf (8 * w) (List.foldl
        (fun acc t => if Row.GetBit c t = 1 then Row.Add acc (List.getD rows t []) else acc)
        (List.replicate w 0) (List.range k))
        = ∑ t ∈ Finset.range k,
            (if Row.tBit c t then vOf (8 * w) (List.getD rows t []) else 0) := by
  intro k
  induction k with
  | zero =>
    intro _
    exact ⟨WFRow.replicate_zero w, by simp [vOf_replicate_zero]⟩
  | succ k ih =>
    intro hk
    obtain ⟨ihW, ihv⟩ := ih (by omega)
    rw [List.range_succ, List.foldl_append, List.foldl_cons, List.foldl_nil,
      Finset.sum_range_succ]
    have hWk : WFRow w (List.getD rows k []) := WFRow_getD hW (by omega)
    by_cases hb : Row.GetBit c k = 1
    · rw [if_pos hb, (GetBit_eq_one_iff c k).1 hb, if_pos rfl]
      refine ⟨ihW.RowAdd hWk, ?_⟩
      rw [vOf_add (ihW.1.trans hWk.1.symm), ihv]
    · rw [if_neg hb]
      have htb : Row.tBit c k = false := by
        cases h : Row.tBit c k
        · rfl
        · exact absurd ((GetBit_eq_one_iff c k).2 h) hb
      rw [htb]
      simp only [Bool.false_eq_true, if_false, add_zero]
      exact ⟨ihW, ihv⟩

theorem rowCombo_spec {w : Nat} (c : Row) (rows : List Row)
    (hW : ∀ r ∈ rows, WFRow w r) :
    WFRow w (rowCombo c rows w) ∧
    vOf (8 * w) (rowCombo c rows w) = comboV w c rows :=
  rowCombo_fold_spec c rows hW rows.length (le_refl _)

/-- The invariants of the incremental builder (spec §3): equal ranks, a
reduced-echelon `simplest` with one distinct pivot per row, each `simplest`
row being the combination of the raw rows selected by its inverse-tracking
row, and tracking coefficients supported on the accepted rows. -/
structure IncInv (w : Nat) (st : IncrementalMatrix) : Prop where
  hn : st.n = 8 * w
  hr : st.raw.length ≤ st.n
  hslen : st.simplest.length = st.raw.length
  hilen : st.inverse.length = st.raw.length
  hWraw : ∀ r ∈ st.raw, WFRow w r
  hWsimp : ∀ r ∈ st.simplest, WFRow w r
  hWinv : ∀ r ∈ st.inverse, WFRow w r
  hpivlt : ∀ j, j < st.raw.length → pivot (List.getD st.simplest j []) < st.n
  hpivbit : ∀ j, j < st.raw.length →
    Row.tBit (List.getD st.simplest j []) (pivot (List.getD st.simplest j [])) = true
  hpivdis : ∀ j, j < st.raw.length → ∀ k, k < st.raw.length → j ≠ k →
    Row.tBit (List.getD st.simplest k []) (pivot (List.getD st.simplest j [])) = false
  haug : ∀ j, j < st.raw.length →
    vOf (8 * w) (List.getD st.simplest j [])
      = comboV w (List.getD st.inverse j []) st.raw
  hsupp : ∀ j, j < st.raw.length → ∀ t, st.raw.length ≤ t →
    Row.tBit (List.getD st.inverse j []) t = false

/-- Basic facts about the reduction fold: well-formedness, and every
already-processed pivot is cleared in the candidate. -/
theorem reduce_basic {w : Nat} {st : IncrementalMatrix} (hinv : IncInv w st)
    {row aug0 : Row} (hWrow : WFRow w row) (hWaug : WFRow w aug0) :
    ∀ k, k ≤ st.raw.length →
      WFRow w (List.foldl (reduceStep st) (row, aug0) (List.range k)).1 ∧
      WFRow w (List.foldl (reduceStep st) (row, aug0) (List.range k)).2 ∧
      (∀ j, j < k →
        Row.tBit (List.foldl (reduceStep st) (row, aug0) (List.range k)).1
          (pivot (List.getD st.simplest j [])) = false) := by
  intro k
  induction k with
  | zero =>
    intro _
    exact ⟨hWrow, hWaug, fun j hj => absurd hj (by omega)⟩
  | succ k ih =>
    intro hk
    obtain ⟨ihW1, ihW2, ihclr⟩ := ih (by omega)
    rw [List.range_succ, List.foldl_append, List.foldl_cons, List.foldl_nil]
    set cur := List.foldl (reduceStep st) (row, aug0) (List.range k) with hcur
    have hklt : k < st.raw.length := by omega
    have hWsk : WFRow w (List.getD st.simplest k []) :=
      WFRow_getD hinv.hWsimp (by rw [hinv.hslen]; omega)
    have hWik : WFRow w (List.getD st.inverse k []) :=
      WFRow_getD hinv.hWinv (by rw [hinv.hilen]; omega)
    unfold reduceStep
    by_cases hb : Row.GetBit cur.1 (pivot (List.getD st.simplest k [])) = 1
    · rw [if_pos hb]
      refine ⟨ihW1.RowAdd hWsk, ihW2.RowAdd hWik, ?_⟩
      intro j hj
      show Row.tBit (Row.Add cur.1 (List.getD st.simplest k []))
          (pivot (List.getD st.simplest j [])) = false
      rw [tBit_RowAdd (ihW1.1.trans hWsk.1.symm)]
      by_cases hjk : j = k
      · subst hjk
        rw [(GetBit_eq_one_iff _ _).1 hb, hinv.hpivbit j hklt]
        rfl
      · rw [ihclr j (by omega), hinv.hpivdis j (by omega) k hklt hjk]
        rfl
    · rw [if_neg hb]
      refine ⟨ihW1, ihW2, ?_⟩
      intro j hj
      by_cases hjk : j = k
      · subst hjk
        cases h : Row.tBit cur.1 (pivot (List.getD st.simplest j []))
        · rfl
        · exact absurd ((GetBit_eq_one_iff _ _).2 h) hb
      · exact ihclr j (by omega)

/-- The tracking invariant of the reduction fold: the candidate stays the
combination of `raw ++ [row]` selected by the tracking row, whose bit `r`
stays set and whose bits above `r` stay clear. -/
theorem reduce_comb {w : Nat} {st : IncrementalMatrix} (hinv : IncInv w st)
    {row aug0 : Row} (hWrow : WFRow w row) (hWaug : WFRow w aug0)
    (hc0 : vOf (8 * w) row = comboV w aug0 (st.raw ++ [row]))
    (hr0 : Row.tBit aug0 st.raw.length = true)
    (hhi0 : ∀ t, st.raw.length < t → Row.tBit aug0 t = false) :
    ∀ k, k ≤ st.raw.length →
      vOf (8 * w) (List.foldl (reduceStep st) (row, aug0) (List.range k)).1
        = comboV w (List.foldl (reduceStep st) (row, aug0) (List.range k)).2
            (st.raw ++ [row]) ∧
      Row.tBit (List.foldl (reduceStep st) (row, aug0) (List.range k)).2
        st.raw.length = true ∧
      (∀ t, st.raw.length < t →
        Row.tBit (List.foldl (reduceStep st) (row, aug0) (List.range k)).2 t = false) := by
  intro k
  induction k with
  | zero =>
    intro _
    exact ⟨hc0, hr0, hhi0⟩
  | succ k ih =>
    intro hk
    obtain ⟨ihc, ihr, ihhi⟩ := ih (by omega)
    obtain ⟨ihW1, ihW2, _⟩ := reduce_basic hinv hWrow hWaug k (by omega)
    rw [List.range_succ, List.foldl_append, List.foldl_cons, List.foldl_nil]
    set cur := List.foldl (reduceStep st) (row, aug0) (List.range k) with hcur
    have hklt : k < st.raw.length := by omega
    have hWsk : WFRow w (List.getD st.simplest k []) :=
      WFRow_getD hinv.hWsimp (by rw [hinv.hslen]; omega)
    have hWik : WFRow w (List.getD st.inverse k []) :=
      WFRow_getD hinv.hWinv (by rw [hinv.hilen]; omega)
    unfold reduceStep
    by_cases hb : Row.GetBit cur.1 (pivot (List.getD st.simplest k [])) = 1
    · rw [if_pos hb]
      refine ⟨?_, ?_, ?_⟩
      · show vOf (8 * w) (Row.Add cur.1 (List.getD st.simplest k []))
            = comboV w (Row.Add cur.2 (List.getD st.inverse k [])) (st.raw ++ [row])
        rw [vOf_add (ihW1.1.trans hWsk.1.symm), comboV_add (ihW2.1.trans hWik.1.symm), ihc]
        apply congrArg
        have h1 : comboV w (List.getD st.inverse k []) (st.raw ++ [row])
            = comboV w (List.getD st.inverse k []) st.raw := by
          rw [comboV_append,
            hinv.hsupp k hklt st.raw.length (le_refl _)]
          simp
        rw [h1, ← hinv.haug k hklt]
      · show Row.tBit (Row.Add cur.2 (List.getD st.inverse k [])) st.raw.length = true
        rw [tBit_RowAdd (ihW2.1.trans hWik.1.symm), ihr,
          hinv.hsupp k hklt st.raw.length (le_refl _)]
        rfl
      · intro t ht
        show Row.tBit (Row.Add cur.2 (List.getD st.inverse k [])) t = false
        rw [tBit_RowAdd (ihW2.1.trans hWik.1.symm), ihhi t ht,
          hinv.hsupp k hklt t (by omega)]
        rfl
    · rw [if_neg hb]
      exact ⟨ihc, ihr, ihhi⟩

/-! #### Facts about the Add building blocks -/

theorem addAug0_facts {w : Nat} {st : IncrementalMatrix} (hinv : IncInv w st) :
    WFRow w (addAug0 st) ∧
    (st.raw.length < st.n → Row.tBit (addAug0 st) st.raw.length = true) ∧
    (∀ t, t ≠ st.raw.length → Row.tBit (addAug0 st) t = false) := by
  have hw8 : st.n / 8 = w := by rw [hinv.hn]; omega
  unfold addAug0
  rw [hw8]
  refine ⟨(WFRow.replicate_zero w).SetBit _ true, ?_, ?_⟩
  · intro hlt
    rw [hinv.hn] at hlt
    exact tBit_SetBit_self (by simp only [List.length_replicate]; omega) true
  · intro t ht
    rw [tBit_SetBit_other ht, tBit_replicate_zero]

theorem addAug0_comb {w : Nat} {st : IncrementalMatrix} (hinv : IncInv w st)
    (hrlt : st.raw.length < st.n) {row : Row} (_hWrow : WFRow w row) :
    vOf (8 * w) row = comboV w (addAug0 st) (st.raw ++ [row]) := by
  rw [comboV_append]
  have h1 : comboV w (addAug0 st) st.raw = 0 := by
    unfold comboV
    apply Finset.sum_eq_zero
    intro t ht
    rw [(addAug0_facts hinv).2.2 t (by have := Finset.mem_range.1 ht; omega)]
    simp
  rw [h1, (addAug0_facts hinv).2.1 hrlt, zero_add, if_pos rfl]

theorem pivot_inj {w : Nat} {st : IncrementalMatrix} (hinv : IncInv w st)
    {j k : Nat} (hj : j < st.raw.length) (hk : k < st.raw.length)
    (hp : pivot (List.getD st.simplest j []) = pivot (List.getD st.simplest k []))
    : j = k := by
  by_contra hne
  have h1 := hinv.hpivdis j hj k hk hne
  rw [hp] at h1
  rw [hinv.hpivbit k hk] at h1
  exact absurd h1 (by simp)

theorem full_pivot_surj {w : Nat} {st : IncrementalMatrix} (hinv : IncInv w st)
    (hfull : st.raw.length = st.n) :
    ∀ c, c < st.n → ∃ j, j < st.raw.length ∧ pivot (List.getD st.simplest j []) = c := by
  intro c hc
  have hinj : Function.Injective (fun j : Fin st.raw.length =>
      (⟨pivot (List.getD st.simplest j.val []), hinv.hpivlt j.val j.isLt⟩ : Fin st.n)) := by
    intro a b hab
    have := congrArg Fin.val hab
    simp only at this
    exact Fin.ext (pivot_inj hinv a.isLt b.isLt this)
  have hbij : Function.Bijective (fun j : Fin st.raw.length =>
      (⟨pivot (List.getD st.simplest j.val []), hinv.hpivlt j.val j.isLt⟩ : Fin st.n)) := by
    rw [Fintype.bijective_iff_injective_and_card]
    exact ⟨hinj, by simp [hfull]⟩
  obtain ⟨j, hj⟩ := hbij.2 ⟨c, hc⟩
  exact ⟨j.val, j.isLt, congrArg Fin.val hj⟩

/-- At full rank every candidate reduces to zero. -/
theorem red_zero_of_full {w : Nat} {st : IncrementalMatrix} (hinv : IncInv w st)
    (hfull : st.raw.length = st.n) {row : Row} (hWrow : WFRow w row) :
    addRed st row = List.replicate w 0 := by
  obtain ⟨hWred, _, hclr⟩ :=
    reduce_basic hinv hWrow (addAug0_facts hinv).1 st.raw.length (le_refl _)
  apply row_ext hWred (WFRow.replicate_zero w)
  intro i hi
  rw [tBit_replicate_zero]
  obtain ⟨j, hj, hpj⟩ := full_pivot_surj hinv hfull i (by rw [hinv.hn]; omega)
  rw [← hpj]
  exact hclr j hj

theorem Add_false_state {st : IncrementalMatrix} {row : Row}
    (hfalse : (st.Add row).2 = false) : (st.Add row).1 = st := by
  unfold IncrementalMatrix.Add
  by_cases hz : addRed st row = List.replicate (st.n / 8) 0
  · rw [if_pos hz]
  · exfalso
    unfold IncrementalMatrix.Add at hfalse
    rw [if_neg hz] at hfalse
    exact absurd hfalse (by simp)

theorem Add_true_state {st : IncrementalMatrix} {row : Row}
    (hne : ¬ addRed st row = List.replicate (st.n / 8) 0) :
    st.Add row = (⟨st.n, st.raw ++ [row],
      backSubS st (pivot (addRed st row)) (addRed st row) ++ [addRed st row],
      backSubI st (pivot (addRed st row)) (addAug st row) ++ [addAug st row]⟩, true) := by
  unfold IncrementalMatrix.Add
  rw [if_neg hne]

theorem length_backSubS (st : IncrementalMatrix) (p : Nat) (red : Row) :
    (backSubS st p red).length = st.raw.length := by
  unfold backSubS; simp

theorem length_backSubI (st : IncrementalMatrix) (p : Nat) (aug : Row) :
    (backSubI st p aug).length = st.raw.length := by
  unfold backSubI; simp

theorem getD_backSubS {st : IncrementalMatrix} {p : Nat} {red : Row} {j : Nat}
    (hj : j < st.raw.length) :
    List.getD (backSubS st p red) j []
      = if Row.GetBit (List.getD st.simplest j []) p = 1
        then Row.Add (List.getD st.simplest j []) red else List.getD st.simplest j [] := by
  unfold backSubS
  rw [List.getD_eq_getElem?_getD,
    List.getElem?_eq_getElem (by simp only [List.length_map, List.length_range]; omega),
    Option.getD_some, List.getElem_map, List.getElem_range]

theorem getD_backSubI {st : IncrementalMatrix} {p : Nat} {aug : Row} {j : Nat}
    (hj : j < st.raw.length) :
    List.getD (backSubI st p aug) j []
      = if Row.GetBit (List.getD st.simplest j []) p = 1
        then Row.Add (List.getD st.inverse j []) aug else List.getD st.inverse j [] := by
  unfold backSubI
  rw [List.getD_eq_getElem?_getD,
    List.getElem?_eq_getElem (by simp only [List.length_map, List.length_range]; omega),
    Option.getD_some, List.getElem_map, List.getElem_range]

theorem getD_append_sing_left {l : List Row} {x : Row} {j : Nat} (hj : j < l.length) :
    List.getD (l ++ [x]) j [] = List.getD l j [] := by
  rw [List.getD_eq_getElem?_getD, List.getElem?_append_left hj, ← List.getD_eq_getElem?_getD]

theorem getD_append_sing_self (l : List Row) (x : Row) :
    List.getD (l ++ [x]) l.length [] = x := by
  rw [List.getD_eq_getElem?_getD, List.getElem?_append_right (le_refl _)]
  simp

theorem nonzero_of_tBit {w : Nat} {e : Row} {q : Nat} (h : Row.tBit e q = true) :
    e ≠ List.replicate w 0 := by
  intro hz
  rw [hz, tBit_replicate_zero] at h
  exact absurd h (by simp)

/-- A successful `Add` keeps the builder invariant, appends the original
row to `raw`, and can only happen below full rank. -/
theorem Add_true_inv {w : Nat} {st : IncrementalMatrix} (hinv : IncInv w st) {row : Row}
    (hWrow : WFRow w row) (htrue : (st.Add row).2 = true) :
    st.raw.length < st.n ∧
    (st.Add row).1.raw = st.raw ++ [row] ∧
    IncInv w (st.Add row).1 := by
  have hw8 : st.n / 8 = w := by rw [hinv.hn]; omega
  have hne : ¬ addRed st row = List.replicate (st.n / 8) 0 := by
    intro h
    unfold IncrementalMatrix.Add at htrue
    rw [if_pos h] at htrue
    exact absurd htrue (by simp)
  have hnew : addRed st row ≠ List.replicate w 0 := by rw [← hw8]; exact hne
  have hrlt : st.raw.length < st.n := by
    rcases Nat.lt_or_ge st.raw.length st.n with h | h
    · exact h
    · exact absurd (red_zero_of_full hinv (le_antisymm hinv.hr h) hWrow) hnew
  have hredEq : addRed st row
      = (List.foldl (reduceStep st) (row, addAug0 st) (List.range st.raw.length)).1 := rfl
  have haugEq : addAug st row
      = (List.foldl (reduceStep st) (row, addAug0 st) (List.range st.raw.length)).2 := rfl
  obtain ⟨hWred, hWaug, hclr⟩ :=
    reduce_basic hinv hWrow (addAug0_facts hinv).1 st.raw.length (le_refl _)
  rw [← hredEq] at hWred hclr
  rw [← haugEq] at hWaug
  obtain ⟨hcomb, haugr, haughi⟩ := reduce_comb hinv hWrow (addAug0_facts hinv).1
    (addAug0_comb hinv hrlt hWrow) ((addAug0_facts hinv).2.1 hrlt)
    (fun t ht => (addAug0_facts hinv).2.2 t (by omega)) st.raw.length (le_refl _)
  rw [← hredEq, ← haugEq] at hcomb
  rw [← haugEq] at haugr haughi
  obtain ⟨hplt, hpbit, hplow⟩ := pivot_spec (w := w) hWred hnew
  -- abbreviations
  set r := st.raw.length with hrdef
  set red := addRed st row with hreddef
  set aug := addAug st row with haugdef
  set p := pivot red with hpdef
  -- the new pivot differs from every stored pivot
  have hp_ne : ∀ j, j < r → p ≠ pivot (List.getD st.simplest j []) := by
    intro j hj heq
    have h1 := hclr j hj
    rw [← heq, hpbit] at h1
    exact absurd h1 (by simp)
  -- stored rows are well formed and satisfy pivot_spec
  have hWs : ∀ j, j < r → WFRow w (List.getD st.simplest j []) := by
    intro j hj
    exact WFRow_getD hinv.hWsimp (by rw [hinv.hslen]; omega)
  have hWi : ∀ j, j < r → WFRow w (List.getD st.inverse j []) := by
    intro j hj
    exact WFRow_getD hinv.hWinv (by rw [hinv.hilen]; omega)
  have hslow : ∀ j, j < r → ∀ q, q < pivot (List.getD st.simplest j []) →
      Row.tBit (List.getD st.simplest j []) q = false := by
    intro j hj
    exact (pivot_spec (hWs j hj) (nonzero_of_tBit (hinv.hpivbit j hj))).2.2
  -- in the back-substitution case the stored pivot is strictly below p
  have hporder : ∀ j, j < r → Row.GetBit (List.getD st.simplest j []) p = 1 →
      pivot (List.getD st.simplest j []) < p := by
    intro j hj hb
    have hbt := (GetBit_eq_one_iff _ _).1 hb
    rcases Nat.lt_trichotomy p (pivot (List.getD st.simplest j [])) with h | h | h
    · rw [hslow j hj p h] at hbt
      exact absurd hbt (by simp)
    · exact absurd h (hp_ne j hj)
    · exact h
  -- bits of the updated simplest rows
  have hbitS : ∀ j, j < r → ∀ q,
      Row.tBit (List.getD (backSubS st p red) j []) q
        = if Row.GetBit (List.getD st.simplest j []) p = 1
          then xor (Row.tBit (List.getD st.simplest j []) q) (Row.tBit red q)
          else Row.tBit (List.getD st.simplest j []) q := by
    intro j hj q
    rw [getD_backSubS hj]
    by_cases hb : Row.GetBit (List.getD st.simplest j []) p = 1
    · rw [if_pos hb, if_pos hb, tBit_RowAdd ((hWs j hj).1.trans hWred.1.symm)]
    · rw [if_neg hb, if_neg hb]
  -- the updated simplest rows keep their pivots
  have hpivKeep : ∀ j, j < r →
      pivot (List.getD (backSubS st p red) j []) = pivot (List.getD st.simplest j []) := by
    intro j hj
    by_cases hb : Row.GetBit (List.getD st.simplest j []) p = 1
    · have hWnew : WFRow w (List.getD (backSubS st p red) j []) := by
        rw [getD_backSubS hj, if_pos hb]
        exact (hWs j hj).RowAdd hWred
      apply pivot_eq hWnew
      · have hb2 := hinv.hpivlt j hj
        rw [hinv.hn] at hb2
        exact hb2
      · rw [hbitS j hj _, if_pos hb, hinv.hpivbit j hj,
          hclr j hj]
        rfl
      · intro q hq
        rw [hbitS j hj q, if_pos hb, hslow j hj q hq, hplow q (by
          have := hporder j hj hb
          omega)]
        rfl
    · rw [getD_backSubS hj, if_neg hb]
  -- goals
  rw [Add_true_state hne]
  refine ⟨hrlt, rfl, ?_⟩
  -- accessors of the new state
  have hS : ∀ j, j < r →
      List.getD (backSubS st p red ++ [red]) j [] = List.getD (backSubS st p red) j [] := by
    intro j hj
    exact getD_append_sing_left (by rw [length_backSubS]; omega)
  have hSr : List.getD (backSubS st p red ++ [red]) r [] = red := by
    have := getD_append_sing_self (backSubS st p red) red
    rw [length_backSubS] at this
    exact this
  have hI : ∀ j, j < r →
      List.getD (backSubI st p aug ++ [aug]) j [] = List.getD (backSubI st p aug) j [] := by
    intro j hj
    exact getD_append_sing_left (by rw [length_backSubI]; omega)
  have hIr : List.getD (backSubI st p aug ++ [aug]) r [] = aug := by
    have := getD_append_sing_self (backSubI st p aug) aug
    rw [length_backSubI] at this
    exact this
  have hRaw : ∀ t, t < r →
      List.getD (st.raw ++ [row]) t [] = List.getD st.raw t [] := by
    intro t ht
    exact getD_append_sing_left (by omega)
  -- pivots of the new state
  have hpivN : ∀ j, j < r →
      pivot (List.getD (backSubS st p red ++ [red]) j [])
        = pivot (List.getD st.simplest j []) := by
    intro j hj
    rw [hS j hj, hpivKeep j hj]
  -- combination forms over the extended raw list
  have hcomboExt : ∀ j, j < r →
      comboV w (List.getD st.inverse j []) (st.raw ++ [row])
        = comboV w (List.getD st.inverse j []) st.raw := by
    intro j hj
    rw [comboV_append, hinv.hsupp j hj r (le_refl _)]
    simp
  constructor
  case hn => exact hinv.hn
  case hr =>
    show (st.raw ++ [row]).length ≤ st.n
    rw [List.length_append]
    simp only [List.length_singleton]
    omega
  case hslen =>
    show (backSubS st p red ++ [red]).length = (st.raw ++ [row]).length
    rw [List.length_append, List.length_append, length_backSubS]
    simp
  case hilen =>
    show (backSubI st p aug ++ [aug]).length = (st.raw ++ [row]).length
    rw [List.length_append, List.length_append, length_backSubI]
    simp
  case hWraw =>
    intro x hx
    rcases List.mem_append.1 hx with h | h
    · exact hinv.hWraw x h
    · rw [List.mem_singleton.1 h]
      exact hWrow
  case hWsimp =>
    intro x hx
    rcases List.mem_append.1 hx with h | h
    · unfold backSubS at h
      rcases List.mem_map.1 h with ⟨j, hjmem, hxj⟩
      have hj : j < r := by
        have := List.mem_range.1 hjmem
        omega
      rw [← hxj]
      by_cases hb : Row.GetBit (List.getD st.simplest j []) p = 1
      · rw [if_pos hb]
        exact (hWs j hj).RowAdd hWred
      · rw [if_neg hb]
        exact hWs j hj
    · rw [List.mem_singleton.1 h]
      exact hWred
  case hWinv =>
    intro x hx
    rcases List.mem_append.1 hx with h | h
    · unfold backSubI at h
      rcases List.mem_map.1 h with ⟨j, hjmem, hxj⟩
      have hj : j < r := by
        have := List.mem_range.1 hjmem
        omega
      rw [← hxj]
      by_cases hb : Row.GetBit (List.getD st.simplest j []) p = 1
      · rw [if_pos hb]
        exact (hWi j hj).RowAdd hWaug
      · rw [if_neg hb]
        exact hWi j hj
    · rw [List.mem_singleton.1 h]
      exact hWaug
  case hpivlt =>
    intro j hj
    have hjlt : j < r + 1 := by simpa using hj
    by_cases hjr : j = r
    · show pivot (List.getD (backSubS st p red ++ [red]) j []) < st.n
      rw [hjr, hSr, hinv.hn]
      exact hplt
    · have hjlt2 : j < r := by omega
      show pivot (List.getD (backSubS st p red ++ [red]) j []) < st.n
      rw [hpivN j hjlt2]
      exact hinv.hpivlt j hjlt2
  case hpivbit =>
    intro j hj
    have hjlt : j < r + 1 := by simpa using hj
    by_cases hjr : j = r
    · show Row.tBit (List.getD (backSubS st p red ++ [red]) j [])
        (pivot (List.getD (backSubS st p red ++ [red]) j [])) = true
      rw [hjr, hSr]
      exact hpbit
    · have hjlt2 : j < r := by omega
      show Row.tBit (List.getD (backSubS st p red ++ [red]) j [])
        (pivot (List.getD (backSubS st p red ++ [red]) j [])) = true
      rw [hpivN j hjlt2, hS j hjlt2, hbitS j hjlt2]
      by_cases hb : Row.GetBit (List.getD st.simplest j []) p = 1
      · rw [if_pos hb, hinv.hpivbit j hjlt2, hclr j hjlt2]
        rfl
      · rw [if_neg hb, hinv.hpivbit j hjlt2]
  case hpivdis =>
    intro j hj k hk hjk
    have hjlt : j < r + 1 := by simpa using hj
    have hklt : k < r + 1 := by simpa using hk
    by_cases hjr : j = r
    · -- the new pivot p is clear in every other stored row
      have hklt2 : k < r := by omega
      show Row.tBit (List.getD (backSubS st p red ++ [red]) k [])
        (pivot (List.getD (backSubS st p red ++ [red]) j [])) = false
      rw [hjr, hSr, hS k hklt2, hbitS k hklt2]
      by_cases hb : Row.GetBit (List.getD st.simplest k []) p = 1
      · rw [if_pos hb, (GetBit_eq_one_iff _ _).1 hb, hpbit]
        rfl
      · rw [if_neg hb]
        cases h : Row.tBit (List.getD st.simplest k []) (pivot red)
        · rfl
        · exact absurd ((GetBit_eq_one_iff _ _).2 h) hb
    · have hjlt2 : j < r := by omega
      show Row.tBit (List.getD (backSubS st p red ++ [red]) k [])
        (pivot (List.getD (backSubS st p red ++ [red]) j [])) = false
      rw [hpivN j hjlt2]
      by_cases hkr : k = r
      · subst hkr
        rw [hSr]
        exact hclr j hjlt2
      · have hklt2 : k < r := by omega
        rw [hS k hklt2, hbitS k hklt2]
        by_cases hb : Row.GetBit (List.getD st.simplest k []) p = 1
        · rw [if_pos hb, hinv.hpivdis j hjlt2 k hklt2 hjk, hclr j hjlt2]
          rfl
        · rw [if_neg hb]
          exact hinv.hpivdis j hjlt2 k hklt2 hjk
  case haug =>
    intro j hj
    have hjlt : j < r + 1 := by simpa using hj
    by_cases hjr : j = r
    · show vOf (8 * w) (List.getD (backSubS st p red ++ [red]) j [])
        = comboV w (List.getD (backSubI st p aug ++ [aug]) j []) (st.raw ++ [row])
      rw [hjr, hSr, hIr]
      exact hcomb
    · have hjlt2 : j < r := by omega
      show vOf (8 * w) (List.getD (backSubS st p red ++ [red]) j [])
        = comboV w (List.getD (backSubI st p aug ++ [aug]) j []) (st.raw ++ [row])
      rw [hS j hjlt2, hI j hjlt2, getD_backSubS hjlt2, getD_backSubI hjlt2]
      by_cases hb : Row.GetBit (List.getD st.simplest j []) p = 1
      · rw [if_pos hb, if_pos hb,
          vOf_add ((hWs j hjlt2).1.trans hWred.1.symm),
          comboV_add ((hWi j hjlt2).1.trans hWaug.1.symm),
          hcomboExt j hjlt2, ← hinv.haug j hjlt2, hcomb]
      · rw [if_neg hb, if_neg hb, hcomboExt j hjlt2]
        exact hinv.haug j hjlt2
  case hsupp =>
    intro j hj t ht
    have hjlt : j < r + 1 := by simpa using hj
    have htlt : r + 1 ≤ t := by simpa using ht
    by_cases hjr : j = r
    · show Row.tBit (List.getD (backSubI st p aug ++ [aug]) j []) t = false
      rw [hjr, hIr]
      exact haughi t (by omega)
    · have hjlt2 : j < r := by omega
      show Row.tBit (List.getD (backSubI st p aug ++ [aug]) j []) t = false
      rw [hI j hjlt2, getD_backSubI hjlt2]
      by_cases hb : Row.GetBit (List.getD st.simplest j []) p = 1
      · rw [if_pos hb, tBit_RowAdd ((hWi j hjlt2).1.trans hWaug.1.symm),
          hinv.hsupp j hjlt2 t (by omega), haughi t (by omega)]
        rfl
      · rw [if_neg hb]
        exact hinv.hsupp j hjlt2 t (by omega)

theorem IncInv_New (w : Nat) : IncInv w (NewIncrementalMatrix (8 * w)) := by
  refine ⟨rfl, by simp [NewIncrementalMatrix], rfl, rfl, ?_, ?_, ?_, ?_, ?_, ?_, ?_, ?_⟩
  · intro r hr; exact absurd hr (List.not_mem_nil r)
  · intro r hr; exact absurd hr (List.not_mem_nil r)
  · intro r hr; exact absurd hr (List.not_mem_nil r)
  · intro j hj; exact absurd hj (by simp [NewIncrementalMatrix])
  · intro j hj; exact absurd hj (by simp [NewIncrementalMatrix])
  · intro j hj; exact absurd hj (by simp [NewIncrementalMatrix])
  · intro j hj; exact absurd hj (by simp [NewIncrementalMatrix])
  · intro j hj; exact absurd hj (by simp [NewIncrementalMatrix])

theorem IncInv_Add {w : Nat} {st : IncrementalMatrix} (hinv : IncInv w st) {row : Row}
    (hWrow : WFRow w row) : IncInv w (st.Add row).1 := by
  cases hb : (st.Add row).2
  · rw [Add_false_state hb]
    exact hinv
  · exact (Add_true_inv hinv hWrow hb).2.2

/-! #### Span and independence facts -/

theorem simplest_li {w : Nat} {st : IncrementalMatrix} (hinv : IncInv w st) :
    LinearIndependent (ZMod 2)
      (fun j : Fin st.raw.length => vOf (8 * w) (List.getD st.simplest j.val [])) := by
  rw [Fintype.linearIndependent_iff]
  intro g hg j
  have hfin : pivot (List.getD st.simplest j.val []) < 8 * w := by
    have h := hinv.hpivlt j.val j.isLt
    rw [hinv.hn] at h
    exact h
  have hev := congrFun hg ⟨pivot (List.getD st.simplest j.val []), hfin⟩
  rw [Finset.sum_apply] at hev
  have hterm : ∀ k : Fin st.raw.length,
      (g k • vOf (8 * w) (List.getD st.simplest k.val []))
          ⟨pivot (List.getD st.simplest j.val []), hfin⟩
        = if k = j then g j else 0 := by
    intro k
    rw [Pi.smul_apply, smul_eq_mul]
    by_cases hkj : k = j
    · subst hkj
      show g k * (if Row.tBit (List.getD st.simplest k.val [])
          (pivot (List.getD st.simplest k.val [])) then (1 : ZMod 2) else 0) = _
      rw [hinv.hpivbit k.val k.isLt, if_pos rfl, if_pos rfl, mul_one]
    · show g k * (if Row.tBit (List.getD st.simplest k.val [])
          (pivot (List.getD st.simplest j.val [])) then (1 : ZMod 2) else 0) = _
      rw [hinv.hpivdis j.val j.isLt k.val k.isLt
          (fun h => hkj (Fin.ext h.symm)), if_neg hkj]
      simp
  rw [Finset.sum_congr rfl (fun k _ => hterm k), Finset.sum_ite_eq' Finset.univ j] at hev
  simpa using hev

theorem comboV_mem_span {w : Nat} (x : Row) (rows : List Row) :
    comboV w x rows ∈ Submodule.span (ZMod 2)
      (Set.range (fun t : Fin rows.length => vOf (8 * w) (List.getD rows t.val []))) := by
  unfold comboV
  apply Submodule.sum_mem
  intro t ht
  by_cases hbt : Row.tBit x t
  · rw [if_pos hbt]
    exact Submodule.subset_span ⟨⟨t, Finset.mem_range.1 ht⟩, rfl⟩
  · rw [if_neg hbt]
    exact Submodule.zero_mem _

theorem span_simplest_eq_raw {w : Nat} {st : IncrementalMatrix} (hinv : IncInv w st) :
    Submodule.span (ZMod 2)
        (Set.range (fun j : Fin st.raw.length => vOf (8 * w) (List.getD st.simplest j.val [])))
      = Submodule.span (ZMod 2)
        (Set.range (fun t : Fin st.raw.length => vOf (8 * w) (List.getD st.raw t.val []))) := by
  have hsub : Submodule.span (ZMod 2)
      (Set.range (fun j : Fin st.raw.length => vOf (8 * w) (List.getD st.simplest j.val [])))
      ≤ Submodule.span (ZMod 2)
        (Set.range (fun t : Fin st.raw.length => vOf (8 * w) (List.getD st.raw t.val []))) := by
    rw [Submodule.span_le]
    rintro x ⟨j, rfl⟩
    show vOf (8 * w) (List.getD st.simplest j.val []) ∈ _
    rw [hinv.haug j.val j.isLt]
    exact comboV_mem_span _ _
  have hli : LinearIndependent (ZMod 2)
      (fun j : Fin st.raw.length => vOf (8 * w) (List.getD st.simplest j.val [])) :=
    simplest_li hinv
  have h1 : Module.finrank (ZMod 2) (Submodule.span (ZMod 2)
      (Set.range (fun j : Fin st.raw.length => vOf (8 * w) (List.getD st.simplest j.val []))))
      = st.raw.length := by
    rw [finrank_span_eq_card hli]
    simp
  have h2 : Module.finrank (ZMod 2) (Submodule.span (ZMod 2)
      (Set.range (fun t : Fin st.raw.length => vOf (8 * w) (List.getD st.raw t.val []))))
      ≤ st.raw.length := by
    have := finrank_range_le_card (R := ZMod 2)
      (fun t : Fin st.raw.length => vOf (8 * w) (List.getD st.raw t.val []))
    rw [Fintype.card_fin] at this
    exact this
  exact Submodule.eq_of_le_of_finrank_le hsub (by omega)

/-- Any XOR-combination of the accepted rows reduces to the zero row. -/
theorem addRed_zero_of_combo {w : Nat} {st : IncrementalMatrix} (hinv : IncInv w st)
    (c : Row) : addRed st (rowCombo c st.raw w) = List.replicate w 0 := by
  have hWrow : WFRow w (rowCombo c st.raw w) := (rowCombo_spec c st.raw hinv.hWraw).1
  rcases Nat.lt_or_ge st.raw.length st.n with hrlt | hge
  · have hredEq : addRed st (rowCombo c st.raw w)
        = (List.foldl (reduceStep st) (rowCombo c st.raw w, addAug0 st)
            (List.range st.raw.length)).1 := rfl
    have haugEq : addAug st (rowCombo c st.raw w)
        = (List.foldl (reduceStep st) (rowCombo c st.raw w, addAug0 st)
            (List.range st.raw.length)).2 := rfl
    obtain ⟨hWred, hWaug, hclr⟩ :=
      reduce_basic hinv hWrow (addAug0_facts hinv).1 st.raw.length (le_refl _)
    rw [← hredEq] at hWred hclr
    rw [← haugEq] at hWaug
    obtain ⟨hcomb, haugr, _⟩ := reduce_comb hinv hWrow (addAug0_facts hinv).1
      (addAug0_comb hinv hrlt hWrow) ((addAug0_facts hinv).2.1 hrlt)
      (fun t ht => (addAug0_facts hinv).2.2 t (by omega)) st.raw.length (le_refl _)
    rw [← hredEq, ← haugEq] at hcomb
    rw [← haugEq] at haugr
    -- the reduced row lies in the span of the raw rows
    have hmem : vOf (8 * w) (addRed st (rowCombo c st.raw w))
        ∈ Submodule.span (ZMod 2)
          (Set.range (fun t : Fin st.raw.length =>
            vOf (8 * w) (List.getD st.raw t.val []))) := by
      rw [hcomb, comboV_append, haugr, if_pos rfl,
        (rowCombo_spec c st.raw hinv.hWraw).2]
      exact Submodule.add_mem _ (comboV_mem_span _ _) (comboV_mem_span _ _)
    rw [← span_simplest_eq_raw hinv] at hmem
    rw [mem_span_range_iff_exists_fun] at hmem
    obtain ⟨g, hg⟩ := hmem
    -- every coefficient dies on the corresponding pivot coordinate
    have hg0 : ∀ j : Fin st.raw.length, g j = 0 := by
      intro j
      have hfin : pivot (List.getD st.simplest j.val []) < 8 * w := by
        have h := hinv.hpivlt j.val j.isLt
        rw [hinv.hn] at h
        exact h
      have hev := congrFun hg ⟨pivot (List.getD st.simplest j.val []), hfin⟩
      rw [Finset.sum_apply] at hev
      have hterm : ∀ k : Fin st.raw.length,
          (g k • vOf (8 * w) (List.getD st.simplest k.val []))
              ⟨pivot (List.getD st.simplest j.val []), hfin⟩
            = if k = j then g j else 0 := by
        intro k
        rw [Pi.smul_apply, smul_eq_mul]
        by_cases hkj : k = j
        · subst hkj
          show g k * (if Row.tBit (List.getD st.simplest k.val [])
              (pivot (List.getD st.simplest k.val [])) then (1 : ZMod 2) else 0) = _
          rw [hinv.hpivbit k.val k.isLt, if_pos rfl, if_pos rfl, mul_one]
        · show g k * (if Row.tBit (List.getD st.simplest k.val [])
              (pivot (List.getD st.simplest j.val [])) then (1 : ZMod 2) else 0) = _
          rw [hinv.hpivdis j.val j.isLt k.val k.isLt
              (fun h => hkj (Fin.ext h.symm)), if_neg hkj]
          simp
      rw [Finset.sum_congr rfl (fun k _ => hterm k),
        Finset.sum_ite_eq' Finset.univ j] at hev
      have hred0 : vOf (8 * w) (addRed st (rowCombo c st.raw w))
          ⟨pivot (List.getD st.simplest j.val []), hfin⟩ = 0 := by
        show (if Row.tBit (addRed st (rowCombo c st.raw w))
            (pivot (List.getD st.simplest j.val [])) then (1 : ZMod 2) else 0) = 0
        rw [hclr j.val j.isLt]
        simp
      rw [hred0] at hev
      simpa using hev
    have hv0 : vOf (8 * w) (addRed st (rowCombo c st.raw w)) = 0 := by
      rw [← hg]
      apply Finset.sum_eq_zero
      intro k _
      rw [hg0 k, zero_smul]
    exact vOf_inj rfl hWred (WFRow.replicate_zero w)
      (by rw [hv0, vOf_replicate_zero])
  · exact red_zero_of_full hinv (le_antisymm hinv.hr hge) hWrow

/-- C9: feeding an XOR-combination of already-accepted rows returns false
from `Add` and leaves the whole builder — `Len()` and the raw, simplest and
inverse-tracking structures — exactly as before the call. -/
theorem C9_Add_dependent_row {w : Nat} (st : IncrementalMatrix) (hinv : IncInv w st)
    (c row : Row) (hrow : row = rowCombo c st.raw w) :
    (st.Add row).2 = false ∧ (st.Add row).1 = st ∧
    (st.Add row).1.Len = st.Len ∧ (st.Add row).1.raw = st.raw ∧
    (st.Add row).1.simplest = st.simplest ∧ (st.Add row).1.inverse = st.inverse := by
  have hw8 : st.n / 8 = w := by rw [hinv.hn]; omega
  have hz : addRed st row = List.replicate (st.n / 8) 0 := by
    rw [hrow, hw8]
    exact addRed_zero_of_combo hinv c
  have hfalse : st.Add row = (st, false) := by
    unfold IncrementalMatrix.Add
    rw [if_pos hz]
  rw [hfalse]
  exact ⟨rfl, rfl, rfl, rfl, rfl, rfl⟩

/-- Witness for C9: after accepting `[1]` and `[2]` (n = 8), the dependent
row `[3]` is rejected with no state change. -/
theorem C9_Add_dependent_row_witness :
    (((((NewIncrementalMatrix 8).Add [1]).1.Add [2]).1).Add [3]).2 = false := by
  have hinv0 : IncInv 1 (NewIncrementalMatrix 8) := IncInv_New 1
  have hinv1 : IncInv 1 ((NewIncrementalMatrix 8).Add [1]).1 :=
    IncInv_Add hinv0 (by decide)
  have hinv2 : IncInv 1 ((((NewIncrementalMatrix 8).Add [1]).1).Add [2]).1 :=
    IncInv_Add hinv1 (by decide)
  exact (C9_Add_dependent_row _ hinv2 [3] [3] (by decide)).1

/-! ### C4: feeding all rows of an invertible matrix -/

theorem getD_take {M : BitMatrix} {k t : Nat} (ht : t < k) :
    List.getD (M.take k) t [] = List.getD M t [] := by
  rw [List.getD_eq_getElem?_getD, List.getD_eq_getElem?_getD, List.getElem?_take_of_lt ht]

/-- Two well-formed matrices with the same `ZMod 2` view are equal. -/
theorem mOf_inj {n w : Nat} (hsq : n = 8 * w) {A B : BitMatrix}
    (hA : WFMat n w A) (hB : WFMat n w B) (h : mOf n A = mOf n B) : A = B := by
  apply List.ext_getElem (by rw [hA.1, hB.1])
  intro i h1 h2
  have hi : i < n := by rw [← hA.1]; exact h1
  have hent := Matrix.ext_iff.2 h
  have hrow : vOf n (List.getD A i []) = vOf n (List.getD B i []) := by
    funext j
    exact hent ⟨i, hi⟩ j
  have heq := vOf_inj hsq (hA.getD_row hi) (hB.getD_row hi) hrow
  have hgA : List.getD A i [] = A[i] := by
    rw [List.getD_eq_getElem?_getD, List.getElem?_eq_getElem h1]
    rfl
  have hgB : List.getD B i [] = B[i] := by
    rw [List.getD_eq_getElem?_getD, List.getElem?_eq_getElem h2]
    rfl
  rw [← hgA, ← hgB]
  exact heq

/-- The rows of a matrix that `Invert` succeeds on are linearly
independent over `ZMod 2`. -/
theorem rows_li_of_invert {n w : Nat} (hsq : n = 8 * w) {M N : BitMatrix}
    (hM : WFMat n w M) (hMinv : BitMatrix.Invert M = (N, true)) :
    LinearIndependent (ZMod 2) (fun i : Fin n => vOf n (List.getD M i.val [])) := by
  obtain ⟨hNM, hWN⟩ := invert_success_left_inverse hsq hM hMinv
  have hMN : mOf n M * mOf n N = 1 := Matrix.mul_eq_one_comm.1 hNM
  have hU : IsUnit (mOf n M) := ⟨⟨mOf n M, mOf n N, hMN, hNM⟩, rfl⟩
  exact Matrix.linearIndependent_rows_iff_isUnit.2 hU

/-- If the builder holds exactly the first `k` rows of a matrix with
independent rows, `Add` accepts row `k`. -/
theorem Add_succeeds_of_indep {w : Nat} {st : IncrementalMatrix} (hinv : IncInv w st)
    {M : BitMatrix} (hM : WFMat (8 * w) w M)
    (hli : LinearIndependent (ZMod 2)
      (fun i : Fin (8 * w) => vOf (8 * w) (List.getD M i.val [])))
    {k : Nat} (hk : k < 8 * w) (hraw : st.raw = M.take k) :
    (st.Add (List.getD M k [])).2 = true := by
  set row := List.getD M k [] with hrowdef
  have hw8 : st.n / 8 = w := by rw [hinv.hn]; omega
  have hrlen : st.raw.length = k := by
    rw [hraw, List.length_take, hM.1]
    omega
  have hrlt : st.raw.length < st.n := by
    rw [hrlen, hinv.hn]
    exact hk
  have hWrow : WFRow w row := hM.getD_row hk
  cases hfb : (st.Add row).2
  · exfalso
    have hz : addRed st row = List.replicate (st.n / 8) 0 := by
      by_contra hnz
      rw [Add_true_state hnz] at hfb
      simp at hfb
    have hredEq : addRed st row
        = (List.foldl (reduceStep st) (row, addAug0 st) (List.range st.raw.length)).1 := rfl
    have haugEq : addAug st row
        = (List.foldl (reduceStep st) (row, addAug0 st) (List.range st.raw.length)).2 := rfl
    obtain ⟨hcomb, haugr, -⟩ := reduce_comb hinv hWrow (addAug0_facts hinv).1
      (addAug0_comb hinv hrlt hWrow) ((addAug0_facts hinv).2.1 hrlt)
      (fun t ht => (addAug0_facts hinv).2.2 t (by omega)) st.raw.length (le_refl _)
    rw [← hredEq, ← haugEq] at hcomb
    rw [← haugEq] at haugr
    have hv0 : vOf (8 * w) (addRed st row) = 0 := by
      rw [hz, hw8]
      exact vOf_replicate_zero
    have happ := comboV_append (w := w) (addAug st row) st.raw row
    rw [haugr, if_pos rfl] at happ
    have h0 : comboV w (addAug st row) st.raw + vOf (8 * w) row = 0 := by
      rw [← happ, ← hcomb]
      exact hv0
    have hrow_eq : comboV w (addAug st row) st.raw = vOf (8 * w) row := by
      have hself : comboV w (addAug st row) st.raw + comboV w (addAug st row) st.raw = 0 :=
        funext fun i => zmod2_add_self _
      calc comboV w (addAug st row) st.raw
          = comboV w (addAug st row) st.raw + 0 := (add_zero _).symm
        _ = comboV w (addAug st row) st.raw
            + (comboV w (addAug st row) st.raw + vOf (8 * w) row) := by rw [h0]
        _ = (comboV w (addAug st row) st.raw + comboV w (addAug st row) st.raw)
            + vOf (8 * w) row := (add_assoc _ _ _).symm
        _ = 0 + vOf (8 * w) row := by rw [hself]
        _ = vOf (8 * w) row := zero_add _
    -- the explicit dependency coefficients
    have hterm : ∀ t : Fin (8 * w),
        (if t.val < k then (if Row.tBit (addAug st row) t.val then (1 : ZMod 2) else 0)
         else if t.val = k then 1 else 0) • vOf (8 * w) (List.getD M t.val [])
      = (if t.val < k then (if Row.tBit (addAug st row) t.val
            then vOf (8 * w) (List.getD M t.val []) else 0) else 0)
        + (if t = (⟨k, hk⟩ : Fin (8 * w)) then vOf (8 * w) (List.getD M t.val []) else 0) := by
      intro t
      have hne1 : t.val ≠ k → t ≠ (⟨k, hk⟩ : Fin (8 * w)) := fun hv h => hv (by rw [h])
      rcases Nat.lt_trichotomy t.val k with hlt | heq | hgt
      · rw [if_pos hlt, if_pos hlt, if_neg (hne1 (by omega)), add_zero]
        by_cases hb : Row.tBit (addAug st row) t.val
        · rw [if_pos hb, if_pos hb, one_smul]
        · rw [if_neg hb, if_neg hb, zero_smul]
      · have h1 : ¬ (t.val < k) := by omega
        rw [if_neg h1, if_pos heq, one_smul, if_neg h1, if_pos (Fin.ext heq), zero_add]
      · have h1 : ¬ (t.val < k) := by omega
        have h2 : ¬ (t.val = k) := by omega
        rw [if_neg h1, if_neg h2, zero_smul, if_neg h1, if_neg (hne1 h2), add_zero]
    have e1 : (∑ t : Fin (8 * w),
        (if t.val < k then (if Row.tBit (addAug st row) t.val
            then vOf (8 * w) (List.getD M t.val []) else 0) else 0))
        = ∑ t ∈ Finset.range (8 * w),
            (if t < k then (if Row.tBit (addAug st row) t
              then vOf (8 * w) (List.getD M t []) else 0) else 0) :=
      Fin.sum_univ_eq_sum_range (fun t =>
        if t < k then (if Row.tBit (addAug st row) t
          then vOf (8 * w) (List.getD M t []) else 0) else 0) (8 * w)
    have e2 : (∑ t ∈ Finset.range (8 * w),
        (if t < k then (if Row.tBit (addAug st row) t
          then vOf (8 * w) (List.getD M t []) else 0) else 0))
        = ∑ t ∈ Finset.range k,
            (if t < k then (if Row.tBit (addAug st row) t
              then vOf (8 * w) (List.getD M t []) else 0) else 0) :=
      (Finset.sum_subset (Finset.range_subset.2 (le_of_lt hk))
        (fun x _ hx => if_neg (by simpa using hx))).symm
    have e3 : (∑ t ∈ Finset.range k,
        (if t < k then (if Row.tBit (addAug st row) t
          then vOf (8 * w) (List.getD M t []) else 0) else 0))
        = ∑ t ∈ Finset.range k,
            (if Row.tBit (addAug st row) t
              then vOf (8 * w) (List.getD st.raw t []) else 0) := by
      apply Finset.sum_congr rfl
      intro t ht
      have htk : t < k := Finset.mem_range.1 ht
      rw [if_pos htk, hraw, getD_take htk]
    have e4 : (∑ t ∈ Finset.range k,
        (if Row.tBit (addAug st row) t
          then vOf (8 * w) (List.getD st.raw t []) else 0))
        = comboV w (addAug st row) st.raw := by
      unfold comboV
      rw [hrlen]
    have hS1 := e1.trans (e2.trans (e3.trans e4))
    have e5 : (∑ t : Fin (8 * w),
        (if t = (⟨k, hk⟩ : Fin (8 * w)) then vOf (8 * w) (List.getD M t.val []) else 0))
        = vOf (8 * w) row := by
      rw [Finset.sum_ite_eq' Finset.univ (⟨k, hk⟩ : Fin (8 * w))
        (fun t => vOf (8 * w) (List.getD M t.val [])), if_pos (Finset.mem_univ _)]
    have hsum : (∑ t : Fin (8 * w),
        (if t.val < k then (if Row.tBit (addAug st row) t.val then (1 : ZMod 2) else 0)
         else if t.val = k then 1 else 0) • vOf (8 * w) (List.getD M t.val [])) = 0 :=
      calc (∑ t : Fin (8 * w),
          (if t.val < k then (if Row.tBit (addAug st row) t.val then (1 : ZMod 2) else 0)
           else if t.val = k then 1 else 0) • vOf (8 * w) (List.getD M t.val []))
          = ∑ t : Fin (8 * w),
              ((if t.val < k then (if Row.tBit (addAug st row) t.val
                  then vOf (8 * w) (List.getD M t.val []) else 0) else 0)
               + (if t = (⟨k, hk⟩ : Fin (8 * w))
                  then vOf (8 * w) (List.getD M t.val []) else 0)) :=
            Finset.sum_congr rfl (fun t _ => hterm t)
        _ = (∑ t : Fin (8 * w),
              (if t.val < k then (if Row.tBit (addAug st row) t.val
                then vOf (8 * w) (List.getD M t.val []) else 0) else 0))
            + (∑ t : Fin (8 * w),
              (if t = (⟨k, hk⟩ : Fin (8 * w))
                then vOf (8 * w) (List.getD M t.val []) else 0)) :=
            Finset.sum_add_distrib
        _ = comboV w (addAug st row) st.raw + vOf (8 * w) row := by rw [hS1, e5]
        _ = vOf (8 * w) row + vOf (8 * w) row := by rw [hrow_eq]
        _ = 0 := funext fun i => zmod2_add_self _
    have hcz := Fintype.linearIndependent_iff.1 hli
      (fun t : Fin (8 * w) =>
        if t.val < k then (if Row.tBit (addAug st row) t.val then (1 : ZMod 2) else 0)
        else if t.val = k then 1 else 0) hsum ⟨k, hk⟩
    have hcoef : (if k < k then (if Row.tBit (addAug st row) k then (1 : ZMod 2) else 0)
        else if k = k then 1 else 0) = 0 := hcz
    rw [if_neg (lt_irrefl k), if_pos rfl] at hcoef
    exact one_ne_zero hcoef
  · rfl

/-- Feeding the first `k` rows of a matrix with independent rows: every
`Add` succeeds, the builder holds exactly those rows, and the invariant is
maintained. -/
theorem feedAll_take_spec {w : Nat} {M : BitMatrix} (hM : WFMat (8 * w) w M)
    (hli : LinearIndependent (ZMod 2)
      (fun i : Fin (8 * w) => vOf (8 * w) (List.getD M i.val []))) :
    ∀ k, k ≤ 8 * w →
      (feedAll (NewIncrementalMatrix (8 * w)) (M.take k)).2 = true ∧
      (feedAll (NewIncrementalMatrix (8 * w)) (M.take k)).1.raw = M.take k ∧
      IncInv w (feedAll (NewIncrementalMatrix (8 * w)) (M.take k)).1 := by
  intro k
  induction k with
  | zero =>
    intro _
    exact ⟨rfl, rfl, IncInv_New w⟩
  | succ k ih =>
    intro hk
    obtain ⟨ihok, ihraw, ihinv⟩ := ih (by omega)
    have hklt : k < M.length := by rw [hM.1]; omega
    have htake : M.take (k + 1) = M.take k ++ [List.getD M k []] := by
      rw [List.take_succ, List.getD_eq_getElem?_getD, List.getElem?_eq_getElem hklt]
      rfl
    have hfeed : feedAll (NewIncrementalMatrix (8 * w)) (M.take k ++ [List.getD M k []])
        = (((feedAll (NewIncrementalMatrix (8 * w)) (M.take k)).1.Add (List.getD M k [])).1,
           (feedAll (NewIncrementalMatrix (8 * w)) (M.take k)).2
             && ((feedAll (NewIncrementalMatrix (8 * w)) (M.take k)).1.Add
                  (List.getD M k [])).2) := by
      unfold feedAll
      rw [List.foldl_append, List.foldl_cons, List.foldl_nil]
    have hok2 : ((feedAll (NewIncrementalMatrix (8 * w)) (M.take k)).1.Add
        (List.getD M k [])).2 = true :=
      Add_succeeds_of_indep ihinv hM hli (by omega) ihraw
    have hWrow : WFRow w (List.getD M k []) := hM.getD_row (by omega)
    obtain ⟨-, hrawApp, hinvNew⟩ := Add_true_inv ihinv hWrow hok2
    rw [htake, hfeed]
    refine ⟨?_, ?_, hinvNew⟩
    · show ((feedAll (NewIncrementalMatrix (8 * w)) (M.take k)).2
          && ((feedAll (NewIncrementalMatrix (8 * w)) (M.take k)).1.Add
                (List.getD M k [])).2) = true
      rw [ihok, hok2]
      rfl
    · show ((feedAll (NewIncrementalMatrix (8 * w)) (M.take k)).1.Add
          (List.getD M k [])).1.raw = M.take k ++ [List.getD M k []]
      rw [hrawApp, ihraw]

/-- The fold assembling `Inverse()`: it is well-formed and holds each
tracking row at its pivot address. -/
theorem Inverse_fold_facts {w : Nat} {st : IncrementalMatrix} (hinv : IncInv w st) :
    ∀ k, k ≤ st.raw.length →
      WFMat st.n w (List.foldl
        (fun out j => List.set out (pivot (List.getD st.simplest j []))
          (List.getD st.inverse j []))
        (GenerateEmpty st.n) (List.range k)) ∧
      ∀ j, j < k →
        List.getD (List.foldl
          (fun out j => List.set out (pivot (List.getD st.simplest j []))
            (List.getD st.inverse j []))
          (GenerateEmpty st.n) (List.range k))
          (pivot (List.getD st.simplest j [])) [] = List.getD st.inverse j [] := by
  have hw8 : st.n / 8 = w := by rw [hinv.hn]; omega
  intro k
  induction k with
  | zero =>
    intro _
    have h0 : List.foldl
        (fun out j => List.set out (pivot (List.getD st.simplest j []))
          (List.getD st.inverse j []))
        (GenerateEmpty st.n) (List.range 0) = GenerateEmpty st.n := rfl
    rw [h0]
    refine ⟨⟨by simp [GenerateEmpty], ?_⟩, fun j hj => absurd hj (by omega)⟩
    intro r hr
    have hr2 : r = List.replicate (st.n / 8) 0 := by
      unfold GenerateEmpty at hr
      exact List.eq_of_mem_replicate hr
    rw [hr2, hw8]
    exact WFRow.replicate_zero w
  | succ k ih =>
    intro hk
    obtain ⟨ihW, ihget⟩ := ih (by omega)
    rw [List.range_succ, List.foldl_append, List.foldl_cons, List.foldl_nil]
    set prev := List.foldl
      (fun out j => List.set out (pivot (List.getD st.simplest j []))
        (List.getD st.inverse j []))
      (GenerateEmpty st.n) (List.range k) with hprev
    have hklt : k < st.raw.length := by omega
    have hWik : WFRow w (List.getD st.inverse k []) :=
      WFRow_getD hinv.hWinv (by rw [hinv.hilen]; omega)
    have hplen : prev.length = st.n := ihW.1
    have hpk : pivot (List.getD st.simplest k []) < st.n := hinv.hpivlt k hklt
    refine ⟨ihW.set hWik _, ?_⟩
    intro j hj
    show List.getD (List.set prev (pivot (List.getD st.simplest k []))
        (List.getD st.inverse k [])) (pivot (List.getD st.simplest j [])) []
      = List.getD st.inverse j []
    by_cases hjk : j = k
    · subst hjk
      have hlt2 : pivot (List.getD st.simplest j []) < prev.length := by
        rw [hplen]; exact hpk
      rw [getD_set, if_pos ⟨rfl, hlt2⟩]
    · have hjlt : j < k := by omega
      have hne : ¬ (pivot (List.getD st.simplest j [])
          = pivot (List.getD st.simplest k [])
          ∧ pivot (List.getD st.simplest k []) < prev.length) := by
        rintro ⟨hpeq, -⟩
        exact hjk (pivot_inj hinv (by omega) hklt hpeq)
      rw [getD_set, if_neg hne]
      exact ihget j hjlt

/-- At full rank every `simplest` row is the unit vector at its pivot. -/
theorem simplest_unit_of_full {w : Nat} {st : IncrementalMatrix} (hinv : IncInv w st)
    (hfull : st.raw.length = st.n) {j : Nat} (hj : j < st.raw.length) (q : Nat) :
    Row.tBit (List.getD st.simplest j []) q
      = decide (q = pivot (List.getD st.simplest j [])) := by
  have hWsj : WFRow w (List.getD st.simplest j []) :=
    WFRow_getD hinv.hWsimp (by rw [hinv.hslen]; omega)
  rcases Nat.lt_or_ge q (8 * w) with hq | hq
  · obtain ⟨i, hilt, hpi⟩ := full_pivot_surj hinv hfull q (by rw [hinv.hn]; omega)
    by_cases hij : i = j
    · subst hij
      rw [← hpi, hinv.hpivbit i hilt]
      simp
    · rw [← hpi, hinv.hpivdis i hilt j hj hij]
      have hne : pivot (List.getD st.simplest i []) ≠ pivot (List.getD st.simplest j []) :=
        fun h => hij (pivot_inj hinv hilt hj h)
      exact (decide_eq_false hne).symm
  · rw [tBit_high hWsj hq]
    have hne : q ≠ pivot (List.getD st.simplest j []) := by
      have h := hinv.hpivlt j hj
      rw [hinv.hn] at h
      omega
    exact (decide_eq_false hne).symm

/-- At full rank `Inverse()` is well-formed and is a left inverse of the
accepted rows. -/
theorem Inverse_mul_raw {w : Nat} {st : IncrementalMatrix} (hinv : IncInv w st)
    (hfull : st.raw.length = st.n) :
    WFMat (8 * w) w st.Inverse ∧
    mOf (8 * w) st.Inverse * mOf (8 * w) st.raw = 1 := by
  obtain ⟨hWB, hBget⟩ := Inverse_fold_facts hinv st.raw.length (le_refl _)
  have hIW : WFMat (8 * w) w st.Inverse := ⟨by rw [← hinv.hn]; exact hWB.1, hWB.2⟩
  refine ⟨hIW, ?_⟩
  ext c d
  rw [Matrix.mul_apply, Matrix.one_apply]
  obtain ⟨j, hjlt, hpj⟩ := full_pivot_surj hinv hfull c.val (by rw [hinv.hn]; exact c.isLt)
  have hBc : List.getD st.Inverse c.val [] = List.getD st.inverse j [] := by
    have h := hBget j hjlt
    rw [hpj] at h
    exact h
  have hstep1 : ∀ t : Fin (8 * w),
      mOf (8 * w) st.Inverse c t * mOf (8 * w) st.raw t d
        = (if Row.tBit (List.getD st.inverse j []) t.val
           then vOf (8 * w) (List.getD st.raw t.val []) else 0) d := by
    intro t
    show (if Row.tBit (List.getD st.Inverse c.val []) t.val then (1 : ZMod 2) else 0)
        * (if Row.tBit (List.getD st.raw t.val []) d.val then (1 : ZMod 2) else 0) = _
    rw [hBc]
    by_cases hb : Row.tBit (List.getD st.inverse j []) t.val
    · rw [if_pos hb, if_pos hb, one_mul]
      rfl
    · rw [if_neg hb, if_neg hb, zero_mul]
      rfl
  have hstep2 : (∑ t : Fin (8 * w), mOf (8 * w) st.Inverse c t * mOf (8 * w) st.raw t d)
      = comboV w (List.getD st.inverse j []) st.raw d := by
    have h1 : (∑ t : Fin (8 * w), mOf (8 * w) st.Inverse c t * mOf (8 * w) st.raw t d)
        = ∑ t : Fin (8 * w),
            ((if Row.tBit (List.getD st.inverse j []) t.val
              then vOf (8 * w) (List.getD st.raw t.val []) else 0) d) :=
      Finset.sum_congr rfl (fun t _ => hstep1 t)
    have h2 : comboV w (List.getD st.inverse j []) st.raw d
        = ∑ t ∈ Finset.range st.raw.length,
            ((if Row.tBit (List.getD st.inverse j []) t
              then vOf (8 * w) (List.getD st.raw t []) else 0) d) := by
      show (∑ t ∈ Finset.range st.raw.length,
          (if Row.tBit (List.getD st.inverse j []) t
            then vOf (8 * w) (List.getD st.raw t []) else 0)) d = _
      rw [Finset.sum_apply]
    have hlen : st.raw.length = 8 * w := by rw [hfull, hinv.hn]
    rw [h1, h2, hlen]
    exact Fin.sum_univ_eq_sum_range
      (fun t => (if Row.tBit (List.getD st.inverse j []) t
        then vOf (8 * w) (List.getD st.raw t []) else 0) d) (8 * w)
  rw [hstep2, ← hinv.haug j hjlt]
  show (if Row.tBit (List.getD st.simplest j []) d.val then (1 : ZMod 2) else 0) = _
  rw [simplest_unit_of_full hinv hfull hjlt d.val, hpj]
  by_cases hcd : c = d
  · subst hcd
    simp
  · have hne : ¬ ((decide (d.val = c.val)) = true) := by
      simp only [decide_eq_true_eq]
      exact fun h => hcd (Fin.ext h.symm)
    rw [if_neg hne, if_neg hcd]

/-- C4: feeding the `n` rows of an invertible (well-formed) matrix `M`, in
order, into a fresh incremental builder of dimension `n` makes every `Add`
return true (the conjunction of all results is true), makes
`FullyDefined()` true, and yields `Matrix() = M` and `Inverse()` equal to
the matrix returned by `M.Invert()`. -/
theorem C4_incremental_equivalence (n w : Nat) (M N : BitMatrix) (hsq : n = 8 * w)
    (hM : WFMat n w M) (hMinv : BitMatrix.Invert M = (N, true)) :
    (feedAll (NewIncrementalMatrix n) M).2 = true ∧
    (feedAll (NewIncrementalMatrix n) M).1.FullyDefined = true ∧
    (feedAll (NewIncrementalMatrix n) M).1.Matrix = M ∧
    (feedAll (NewIncrementalMatrix n) M).1.Inverse = N := by
  subst hsq
  have hli := rows_li_of_invert rfl hM hMinv
  have hMfull : M.take (8 * w) = M := by
    rw [← hM.1]
    exact List.take_length M
  obtain ⟨hok, hraw, hfin⟩ := feedAll_take_spec hM hli (8 * w) (le_refl _)
  rw [hMfull] at hok hraw hfin
  have hrlen : (feedAll (NewIncrementalMatrix (8 * w)) M).1.raw.length = 8 * w := by
    rw [hraw, hM.1]
  have hfull : (feedAll (NewIncrementalMatrix (8 * w)) M).1.raw.length
      = (feedAll (NewIncrementalMatrix (8 * w)) M).1.n := by
    rw [hrlen, hfin.hn]
  refine ⟨hok, ?_, hraw, ?_⟩
  · show ((feedAll (NewIncrementalMatrix (8 * w)) M).1.raw.length
        == (feedAll (NewIncrementalMatrix (8 * w)) M).1.n) = true
    rw [hfull]
    simp
  · obtain ⟨hWB, hBM⟩ := Inverse_mul_raw hfin hfull
    obtain ⟨hNM, hWN⟩ := invert_success_left_inverse rfl hM hMinv
    have hMN : mOf (8 * w) M * mOf (8 * w) N = 1 := Matrix.mul_eq_one_comm.1 hNM
    rw [hraw] at hBM
    have hBN : mOf (8 * w) (feedAll (NewIncrementalMatrix (8 * w)) M).1.Inverse
        = mOf (8 * w) N := by
      calc mOf (8 * w) (feedAll (NewIncrementalMatrix (8 * w)) M).1.Inverse
          = mOf (8 * w) (feedAll (NewIncrementalMatrix (8 * w)) M).1.Inverse * 1 :=
            (mul_one _).symm
        _ = mOf (8 * w) (feedAll (NewIncrementalMatrix (8 * w)) M).1.Inverse
            * (mOf (8 * w) M * mOf (8 * w) N) := by rw [hMN]
        _ = (mOf (8 * w) (feedAll (NewIncrementalMatrix (8 * w)) M).1.Inverse
            * mOf (8 * w) M) * mOf (8 * w) N := (mul_assoc _ _ _).symm
        _ = 1 * mOf (8 * w) N := by rw [hBM]
        _ = mOf (8 * w) N := one_mul _
    exact mOf_inj rfl hWB hWN hBN

/-- The concrete 8×8 identity matrix used to witness C4. -/
def c4M : BitMatrix := [[1], [2], [4], [8], [16], [32], [64], [128]]

/-- Witness for C4 at `c4M` (invertible, its own inverse). -/
theorem C4_incremental_equivalence_witness :
    (8 : Nat) = 8 * 1 ∧ WFMat 8 1 c4M ∧ BitMatrix.Invert c4M = (c4M, true) ∧
    (feedAll (NewIncrementalMatrix 8) c4M).2 = true ∧
    (feedAll (NewIncrementalMatrix 8) c4M).1.FullyDefined = true ∧
    (feedAll (NewIncrementalMatrix 8) c4M).1.Inverse = c4M := by
  have h := C4_incremental_equivalence 8 1 c4M c4M (by decide) (by decide) (by decide)
  exact ⟨by decide, by decide, by decide, h.1, h.2.1, h.2.2.2⟩

end AES
